import Mathlib

/-!
Verification of the DSSS simulator engine (`backend/app/dsss_engine.py`).

The engine is shallowly embedded:
* bit arrays (`numpy` uint8 arrays holding 0/1) become `List ℕ`;
* real-valued waveforms become a length together with an amplitude
  function `ℕ → ℝ` (`Wave`), matching how every numpy operation used by the
  engine (`repeat`, `tile`, slicing, reshape+mean) acts on indices;
* the external `hashlib.sha256` digest and the seeded `numpy` generator are
  abstract deterministic parameters (`sha256 : List ℕ → List ℕ`,
  `rng : ℕ → ℕ → Bool`); the unseeded channel-noise draw is an abstract
  sample function `noise : ℕ → ℝ`;
* text is represented by its UTF-8 byte sequence (`List ℕ`), so
  `str.encode`/`bytes.decode` are identities of the model and the decoded
  message is compared bytewise.
-/

set_option maxHeartbeats 1000000

namespace DSSS

/-- `schemas.CodingScheme`: the closed enumeration of coding schemes. -/
inductive CodingScheme
  | nrz
  | manchester
  | rep3
  | hamming74
deriving DecidableEq

/-- `schemas.StageName`: the six pipeline taps. -/
inductive StageName
  | source
  | spreader
  | modulator
  | channel
  | correlator
  | decoder
deriving DecidableEq, BEq

/-- Display name of a stage (the `str` value of the Python enum). -/
def StageName.label : StageName → String
  | .source => "source"
  | .spreader => "spreader"
  | .modulator => "modulator"
  | .channel => "channel"
  | .correlator => "correlator"
  | .decoder => "decoder"

/-- MSB-first bits of one byte, as produced by `np.unpackbits` for a single
byte. -/
def byte_bits (b : ℕ) : List ℕ :=
  (List.range 8).map fun i => b / 2 ^ (7 - i) % 2

/-- `_text_to_bits`: MSB-first bit-unpacking of a byte string
(`np.unpackbits(np.frombuffer(data, dtype=np.uint8))`); empty input gives the
empty bit array. -/
def text_to_bits (data : List ℕ) : List ℕ :=
  data.flatMap byte_bits

/-- `_bits_to_text`, at the byte level: empty bits give the empty string;
otherwise truncate to `expected_bytes * 8` bits, zero-pad to a multiple of 8
(`np.pad` by `(-size) % 8`), pack MSB-first (`np.packbits`), and keep the
first `expected_bytes` bytes.  The final lossy UTF-8 decode is the identity
of the byte-level model. -/
def bits_to_text (bits : List ℕ) (expected_bytes : ℕ) : List ℕ :=
  if bits.length = 0 then []
  else
    let trimmed := bits.take (expected_bytes * 8)
    let padded := trimmed ++ List.replicate ((8 - trimmed.length % 8) % 8) 0
    ((List.range (padded.length / 8)).map fun i =>
      ∑ j ∈ Finset.range 8, padded.getD (8 * i + j) 0 * 2 ^ (7 - j)).take expected_bytes

/-- `_nrz` on one sample: map a bit to `2.0 * b - 1.0`. -/
noncomputable def nrz (b : ℕ) : ℝ := 2 * (b : ℝ) - 1

/-- Coding metadata (`Dict[str, int]` in the source): optional fields model
presence of the keys `"payload_bits"`, `"repeat"` and `"padding"`. -/
structure CodingMeta where
  payload_bits : Option ℕ := none
  repeat_factor : Option ℕ := none
  padding : Option ℕ := none
deriving DecidableEq

/-- One Hamming(7,4) codeword `(p1, p2, d1, p3, d2, d3, d4)` as built by
`_encode_bits` for the scheme `HAMMING74`. -/
def hamming_encode_block (d1 d2 d3 d4 : ℕ) : List ℕ :=
  [d1 ^^^ d2 ^^^ d4, d1 ^^^ d3 ^^^ d4, d1, d2 ^^^ d3 ^^^ d4, d2, d3, d4]

/-- `DSSSEngine._encode_bits`. -/
def encode_bits (bits : List ℕ) : CodingScheme → List ℕ × CodingMeta
  | CodingScheme.nrz =>
      (bits, { payload_bits := some bits.length })
  | CodingScheme.manchester =>
      (bits.flatMap fun b => if b ≠ 0 then [1, 0] else [0, 1],
       { payload_bits := some bits.length })
  | CodingScheme.rep3 =>
      (bits.flatMap fun b => [b, b, b],
       { payload_bits := some bits.length, repeat_factor := some 3 })
  | CodingScheme.hamming74 =>
      let padding := (4 - bits.length % 4) % 4
      let padded := bits ++ List.replicate padding 0
      ((List.range (padded.length / 4)).flatMap fun i =>
         hamming_encode_block (padded.getD (4 * i) 0) (padded.getD (4 * i + 1) 0)
           (padded.getD (4 * i + 2) 0) (padded.getD (4 * i + 3) 0),
       { payload_bits := some bits.length, padding := some padding })

/-- The Hamming(7,4) syndrome `s1 + (s2 << 1) + (s3 << 2)` of a 7-bit block
`(c1, ..., c7)`, as computed by `_decode_bits`. -/
def hamming_syndrome (c : List ℕ) : ℕ :=
  (c.getD 0 0 ^^^ c.getD 2 0 ^^^ c.getD 4 0 ^^^ c.getD 6 0)
    + 2 * (c.getD 1 0 ^^^ c.getD 2 0 ^^^ c.getD 5 0 ^^^ c.getD 6 0)
    + 4 * (c.getD 3 0 ^^^ c.getD 4 0 ^^^ c.getD 5 0 ^^^ c.getD 6 0)

/-- Single-error correction of `_decode_bits`: when the syndrome is nonzero,
flip (`^= 1`) the bit at 0-indexed position `syndrome - 1`. -/
def hamming_correct (c : List ℕ) : List ℕ :=
  if hamming_syndrome c = 0 then c
  else c.set (hamming_syndrome c - 1) (c.getD (hamming_syndrome c - 1) 0 ^^^ 1)

/-- Data-bit extraction of `_decode_bits`: columns `[2, 4, 5, 6]` of a
corrected block. -/
def hamming_data_bits (c : List ℕ) : List ℕ :=
  [c.getD 2 0, c.getD 4 0, c.getD 5 0, c.getD 6 0]

/-- Row `i` of `trimmed.reshape(-1, 7)` in the Hamming branch of
`_decode_bits`. -/
def hamming_block (bits : List ℕ) (i : ℕ) : List ℕ :=
  (List.range 7).map fun j => bits.getD (7 * i + j) 0

/-- `DSSSEngine._decode_bits`, as the value it returns.  (The in-place
mutation the Hamming branch performs on its argument is modelled separately
by `decode_bits_post`.) -/
def decode_bits (bits : List ℕ) : CodingScheme → CodingMeta → List ℕ
  | CodingScheme.nrz, meta =>
      bits.take (meta.payload_bits.getD bits.length)
  | CodingScheme.manchester, meta =>
      ((List.range (bits.length / 2)).map fun i =>
        if bits.getD (2 * i + 1) 0 < bits.getD (2 * i) 0 then 1 else 0).take
        (meta.payload_bits.getD bits.length)
  | CodingScheme.rep3, meta =>
      let rep := meta.repeat_factor.getD 3
      ((List.range (bits.length / rep)).map fun i =>
        if (rep + 1) / 2 ≤ ∑ j ∈ Finset.range rep, bits.getD (rep * i + j) 0 then 1
        else 0).take (meta.payload_bits.getD bits.length)
  | CodingScheme.hamming74, meta =>
      let data := (List.range (bits.length / 7)).flatMap fun i =>
        hamming_data_bits (hamming_correct (hamming_block bits i))
      let padding := meta.padding.getD 0
      let dropped := if padding = 0 then data else data.take (data.length - padding)
      dropped.take (meta.payload_bits.getD bits.length)

/-- The state of the caller's bit array after `_decode_bits` returns: the
Hamming branch corrects blocks in place through a reshaped view of its
argument (`blocks[idx, pos] ^= 1`), while the other branches never write to
it. -/
def decode_bits_post (bits : List ℕ) : CodingScheme → List ℕ
  | CodingScheme.hamming74 =>
      ((List.range (bits.length / 7)).flatMap fun i =>
        hamming_correct (hamming_block bits i)) ++ bits.drop (7 * (bits.length / 7))
  | _ => bits

/-- A sampled real-valued signal: a sample count together with the sample
values (values beyond `len` are irrelevant garbage, as with any numpy
buffer view). -/
structure Wave where
  len : ℕ
  amp : ℕ → ℝ

/-- `_repeat` / `np.repeat`: sample-and-hold each sample `k` times, so output
sample `n` is input sample `n / k`. -/
def repeat_wave (w : Wave) (k : ℕ) : Wave :=
  ⟨w.len * k, fun n => w.amp (n / k)⟩

/-- `_nrz` applied to a whole bit array. -/
noncomputable def nrz_wave (bits : List ℕ) : Wave :=
  ⟨bits.length, fun n => nrz (bits.getD n 0)⟩

/-- `_chunk_mean` (total part): average consecutive non-overlapping windows of
`chunk_size` samples, dropping a trailing partial window. -/
noncomputable def chunk_mean (values : Wave) (chunk_size : ℕ) : Wave :=
  ⟨values.len / chunk_size,
   fun i => (∑ j ∈ Finset.range chunk_size, values.amp (i * chunk_size + j)) / chunk_size⟩

/-- `_chunk_mean` including its guard: `chunk_size <= 0` raises
`ValueError("chunk_size must be > 0")`. -/
noncomputable def chunk_mean_e (values : Wave) (chunk_size : ℕ) : Except String Wave :=
  if chunk_size = 0 then Except.error "chunk_size must be > 0"
  else Except.ok (chunk_mean values chunk_size)

/-- `_generate_seed`: the big-endian unsigned integer built from the first 8
bytes of the SHA-256 digest of the secret's UTF-8 encoding
(`int.from_bytes(digest[:8], "big", signed=False)`).  The digest function
itself is external library code and enters as the abstract parameter
`sha256`. -/
def generate_seed (sha256 : List ℕ → List ℕ) (secret : String) : ℕ :=
  ((sha256 (secret.toUTF8.data.toList.map fun b => b.toNat)).take 8).foldl
    (fun acc b => 256 * acc + b) 0

/-- `_generate_prn`: seed a deterministic generator with
`_generate_seed(secret)` and draw `chips_per_bit` values from `{-1.0, 1.0}`
with replacement.  The seeded generator is external library code and enters
as the abstract parameter `rng` mapping (seed, draw index) to the chosen
element. -/
noncomputable def generate_prn (sha256 : List ℕ → List ℕ) (rng : ℕ → ℕ → Bool)
    (secret : String) (chips_per_bit : ℕ) : Wave :=
  ⟨chips_per_bit, fun i => if rng (generate_seed sha256 secret) i then 1 else -1⟩

/-- `DSSSEngine._spread_bits`: empty bits give a zero vector of length
`chips_per_bit`; otherwise repeat each NRZ symbol `chips_per_bit` times
(`np.repeat`) and multiply by the PRN tiled over the bits (`np.tile`, so
chip `n` of the tiling is PRN chip `n % chips_per_bit`). -/
noncomputable def spread_bits (bits : List ℕ) (prn : Wave) (chips_per_bit : ℕ) : Wave :=
  if bits.length = 0 then ⟨chips_per_bit, fun _ => 0⟩
  else ⟨bits.length * chips_per_bit,
        fun n => nrz (bits.getD (n / chips_per_bit) 0) * prn.amp (n % chips_per_bit)⟩

/-- `DSSSEngine._build_source_waveform`: `np.zeros(repeats or 1)` on empty
bits, else each NRZ symbol repeated `repeats` times. -/
noncomputable def build_source_waveform (bits : List ℕ) (repeats : ℕ) : Wave :=
  if bits.length = 0 then ⟨if repeats = 0 then 1 else repeats, fun _ => 0⟩
  else repeat_wave (nrz_wave bits) repeats

/-- `_band_limited_awgn`: pass the signal through unchanged when
`noise_power <= 0 or bandwidth <= 0`; otherwise add equal-length shaped
noise.  The FFT shaping and rescaling of the unseeded Gaussian draw is
external (`numpy`) randomness and enters as the abstract sample function
`noise`; only the guard and the length-preserving additive structure are
modelled. -/
noncomputable def band_limited_awgn (signal : Wave) (noise_power bandwidth sample_rate : ℝ)
    (noise : ℕ → ℝ) : Wave :=
  if noise_power ≤ 0 ∨ bandwidth ≤ 0 then signal
  else ⟨signal.len, fun n => signal.amp n + noise n⟩

/-- A captured stage: waveform plus sample rate (`StageSnapshot`). -/
structure StageSnapshot where
  waveform : Wave
  sample_rate : ℝ

/-- The per-run stage map `Dict[StageName, StageSnapshot]`, as an ordered
association list. -/
abbrev StageMap := List (StageName × StageSnapshot)

/-- The engine cache `OrderedDict[str, Dict[StageName, StageSnapshot]]`, as
an insertion-ordered association list (head = earliest inserted). -/
abbrev Cache := List (String × StageMap)

/-- `SimulationResult`. -/
structure SimulationResult where
  simulation_id : String
  decoded_message : List ℕ
  mismatch : Bool
  stages : StageMap

/-- `DSSSEngine._store`: delete an already-present key, append at the end,
then evict the oldest entry (`popitem(last=False)`) if the size exceeds the
configured capacity. -/
def store_cache (cache_size : ℕ) (cache : Cache) (simulation_id : String)
    (stages : StageMap) : Cache :=
  let removed :=
    if cache.any fun e => e.1 == simulation_id then
      cache.eraseP fun e => e.1 == simulation_id
    else cache
  let inserted := removed ++ [(simulation_id, stages)]
  if cache_size < inserted.length then inserted.drop 1 else inserted

/-- The default `cache_size` of `DSSSEngine.__init__`. -/
def default_cache_size : ℕ := 16

/-- `DSSSEngine.get_stage`: a missing simulation id or missing stage raises
`KeyError` (surfaced as NotFound). -/
def get_stage (cache : Cache) (simulation_id : String) (stage : StageName) :
    Except String StageSnapshot :=
  match (List.lookup simulation_id cache).bind fun stages => List.lookup stage stages with
  | some snap => Except.ok snap
  | none =>
      Except.error ("Unknown simulation_id/stage combination: " ++ simulation_id ++ "/"
        ++ stage.label)

/-- `chips_per_bit = max(8, len(tx_secret) * 4)` in `simulate` (Python `len`
of a `str` counts code points, as does `String.length`). -/
def chips_per_bit_of (tx_secret : String) : ℕ := max 8 (tx_secret.length * 4)

/-- The carrier `cos(2π · carrier_freq · t)` sampled at `t = n / sample_rate`. -/
noncomputable def carrier_of (carrier_freq sample_rate : ℝ) (n : ℕ) : ℝ :=
  Real.cos (2 * Real.pi * carrier_freq * (n / sample_rate))

/-- `DSSSEngine.simulate`, up to (but not including) the cache store: the
whole pipeline, with the freshly minted id `sim_id` and the abstract
external randomness as parameters.  The only failing step is `_chunk_mean`
on a non-positive window. -/
noncomputable def simulate_run (sha256 : List ℕ → List ℕ) (rng : ℕ → ℕ → Bool)
    (noise : ℕ → ℝ) (sim_id : String) (message : List ℕ) (tx_secret rx_secret : String)
    (chip_rate carrier_freq noise_power noise_bandwidth : ℝ) (oversampling : ℕ)
    (coding_scheme : CodingScheme) : Except String SimulationResult :=
  let payload_bits := text_to_bits message
  let expected_bytes := message.length
  let chips_per_bit := chips_per_bit_of tx_secret
  let sample_rate : ℝ := chip_rate * oversampling
  let encoded := encode_bits payload_bits coding_scheme
  let encoded_bits := encoded.1
  let coding_meta := encoded.2
  let tx_prn := generate_prn sha256 rng tx_secret chips_per_bit
  let spread_chips := spread_bits encoded_bits tx_prn chips_per_bit
  let chip_waveform := repeat_wave spread_chips oversampling
  let source_waveform := build_source_waveform encoded_bits (chips_per_bit * oversampling)
  let carrier := carrier_of carrier_freq sample_rate
  let tx_signal : Wave := ⟨chip_waveform.len, fun n => chip_waveform.amp n * carrier n⟩
  let channel_output := band_limited_awgn tx_signal noise_power noise_bandwidth sample_rate noise
  let rx_demod : Wave := ⟨channel_output.len, fun n => channel_output.amp n * carrier n⟩
  match chunk_mean_e rx_demod oversampling with
  | Except.error e => Except.error e
  | Except.ok rx_chips =>
    let rx_prn := generate_prn sha256 rng rx_secret chips_per_bit
    let despread : Wave := ⟨rx_chips.len, fun n => rx_chips.amp n * rx_prn.amp (n % chips_per_bit)⟩
    match chunk_mean_e despread chips_per_bit with
    | Except.error e => Except.error e
    | Except.ok bit_metrics =>
      let recovered_bits := (List.range bit_metrics.len).map fun b =>
        if 0 < bit_metrics.amp b then 1 else 0
      let decoded_bits := decode_bits recovered_bits coding_scheme coding_meta
      let decoded := bits_to_text decoded_bits expected_bytes
      let decoder_symbols := if decoded_bits.length ≠ 0 then decoded_bits else recovered_bits
      let decoder_waveform := repeat_wave (nrz_wave decoder_symbols) (chips_per_bit * oversampling)
      Except.ok
        { simulation_id := sim_id
          decoded_message := decoded
          mismatch := decoded != message
          stages :=
            [(StageName.source, ⟨source_waveform, sample_rate⟩),
             (StageName.spreader, ⟨chip_waveform, sample_rate⟩),
             (StageName.modulator, ⟨tx_signal, sample_rate⟩),
             (StageName.channel, ⟨channel_output, sample_rate⟩),
             (StageName.correlator, ⟨rx_demod, sample_rate⟩),
             (StageName.decoder, ⟨decoder_waveform, sample_rate⟩)] }

/-- `DSSSEngine.simulate` including its one cache mutation: on success the
six stages are stored under the fresh id; an error propagates before any
cache access.  Returns the outcome together with the cache state after the
call. -/
noncomputable def simulate (sha256 : List ℕ → List ℕ) (rng : ℕ → ℕ → Bool)
    (noise : ℕ → ℝ) (sim_id : String) (cache_size : ℕ) (cache : Cache)
    (message : List ℕ) (tx_secret rx_secret : String)
    (chip_rate carrier_freq noise_power noise_bandwidth : ℝ) (oversampling : ℕ)
    (coding_scheme : CodingScheme) : Except String SimulationResult × Cache :=
  match simulate_run sha256 rng noise sim_id message tx_secret rx_secret chip_rate
      carrier_freq noise_power noise_bandwidth oversampling coding_scheme with
  | Except.ok result =>
      (Except.ok result, store_cache cache_size cache sim_id result.stages)
  | Except.error e => (Except.error e, cache)

/-! ### List helper lemmas -/

theorem getD_eq_getElem (l : List ℕ) (n : ℕ) (h : n < l.length) : l.getD n 0 = l[n] := by
  rw [List.getD_eq_getElem?_getD, List.getElem?_eq_getElem h, Option.getD_some]

theorem length_flatMap_uniform (f : ℕ → List ℕ) (k : ℕ) (hf : ∀ b, (f b).length = k)
    (l : List ℕ) : (l.flatMap f).length = k * l.length := by
  induction l with
  | nil => simp
  | cons a t ih =>
    simp only [List.flatMap_cons, List.length_append, ih, hf, List.length_cons]
    ring

theorem flatMap_uniform_getD (f : ℕ → List ℕ) (k : ℕ) (hf : ∀ b, (f b).length = k)
    (l : List ℕ) (i j : ℕ) (hi : i < l.length) (hj : j < k) :
    (l.flatMap f).getD (k * i + j) 0 = (f (l.getD i 0)).getD j 0 := by
  induction l generalizing i with
  | nil => simp at hi
  | cons a t ih =>
    cases i with
    | zero =>
      simp only [List.flatMap_cons, Nat.mul_zero, Nat.zero_add]
      rw [List.getD_append _ _ _ j (by rw [hf]; exact hj)]
      rfl
    | succ i' =>
      have hklen : (f a).length ≤ k * (i' + 1) + j := by
        rw [hf]; calc k ≤ k * (i' + 1) := Nat.le_mul_of_pos_right k (Nat.succ_pos i')
          _ ≤ k * (i' + 1) + j := Nat.le_add_right _ _
      simp only [List.flatMap_cons]
      rw [List.getD_append_right _ _ _ _ hklen, hf]
      have harith : k * (i' + 1) + j - k = k * i' + j := by ring_nf; omega
      rw [harith]
      exact ih i' (by simpa using Nat.lt_of_succ_lt_succ (Nat.lt_of_lt_of_le hi le_rfl))

theorem map_range_getD (l : List ℕ) :
    (List.range l.length).map (fun i => l.getD i 0) = l := by
  apply List.ext_getElem
  · simp
  · intro n h₁ h₂
    simp only [List.getElem_map, List.getElem_range]
    exact getD_eq_getElem l n h₂

theorem getD_of_boolean (l : List ℕ) (h : ∀ b ∈ l, b ≤ 1) (n : ℕ) : l.getD n 0 ≤ 1 := by
  by_cases hn : n < l.length
  · rw [getD_eq_getElem l n hn]; exact h _ (List.getElem_mem hn)
  · rw [List.getD_eq_getElem?_getD, List.getElem?_eq_none (Nat.le_of_not_lt hn)]
    exact Nat.zero_le 1

/-! ### Bit/byte codec lemmas -/

theorem byte_bits_length (b : ℕ) : (byte_bits b).length = 8 := by
  simp [byte_bits]

theorem byte_bits_getD (b j : ℕ) (hj : j < 8) :
    (byte_bits b).getD j 0 = b / 2 ^ (7 - j) % 2 := by
  rw [getD_eq_getElem _ _ (by rw [byte_bits_length]; exact hj)]
  simp [byte_bits]

theorem byte_bits_boolean (b : ℕ) : ∀ x ∈ byte_bits b, x ≤ 1 := by
  intro x hx
  simp only [byte_bits, List.mem_map] at hx
  obtain ⟨i, _, rfl⟩ := hx
  exact Nat.le_of_lt_succ (Nat.mod_lt _ (by norm_num))

theorem text_to_bits_length (msg : List ℕ) : (text_to_bits msg).length = 8 * msg.length :=
  length_flatMap_uniform byte_bits 8 byte_bits_length msg

theorem text_to_bits_boolean (msg : List ℕ) : ∀ x ∈ text_to_bits msg, x ≤ 1 := by
  intro x hx
  simp only [text_to_bits, List.mem_flatMap] at hx
  obtain ⟨b, _, hb⟩ := hx
  exact byte_bits_boolean b x hb

theorem byte_pack_unpack (b : ℕ) (hb : b < 256) :
    ∑ j ∈ Finset.range 8, (byte_bits b).getD j 0 * 2 ^ (7 - j) = b := by
  have hexp : byte_bits b =
      [b / 2 ^ 7 % 2, b / 2 ^ 6 % 2, b / 2 ^ 5 % 2, b / 2 ^ 4 % 2,
       b / 2 ^ 3 % 2, b / 2 ^ 2 % 2, b / 2 ^ 1 % 2, b / 2 ^ 0 % 2] := by
    simp [byte_bits, List.range_succ]
  rw [hexp]
  simp only [Finset.sum_range_succ, Finset.sum_range_zero]
  norm_num
  omega

theorem bits_to_text_text_to_bits (msg : List ℕ) (h : ∀ b ∈ msg, b < 256) :
    bits_to_text (text_to_bits msg) msg.length = msg := by
  cases msg with
  | nil => simp [bits_to_text, text_to_bits]
  | cons a t =>
    set msg := a :: t with hmsg
    have hm : 0 < msg.length := by simp [hmsg]
    have hlen : (text_to_bits msg).length = 8 * msg.length := text_to_bits_length msg
    have hne : ¬((text_to_bits msg).length = 0) := by
      rw [hlen]; positivity
    rw [bits_to_text, if_neg hne]
    have htake : (text_to_bits msg).take (msg.length * 8) = text_to_bits msg :=
      List.take_of_length_le (by rw [hlen]; ring_nf; exact le_rfl)
    simp only [htake]
    have hmod : (text_to_bits msg).length % 8 = 0 := by rw [hlen]; omega
    rw [hmod]
    simp only [Nat.sub_zero, Nat.mod_self, List.replicate_zero, List.append_nil]
    have hdiv : (text_to_bits msg).length / 8 = msg.length := by rw [hlen]; omega
    rw [hdiv]
    have hmap : (List.range msg.length).map
        (fun i => ∑ j ∈ Finset.range 8, (text_to_bits msg).getD (8 * i + j) 0 * 2 ^ (7 - j))
        = msg := by
      have hcongr : ∀ i < msg.length,
          (∑ j ∈ Finset.range 8, (text_to_bits msg).getD (8 * i + j) 0 * 2 ^ (7 - j))
            = msg.getD i 0 := by
        intro i hi
        have hsum : ∀ j ∈ Finset.range 8,
            (text_to_bits msg).getD (8 * i + j) 0 * 2 ^ (7 - j)
              = (byte_bits (msg.getD i 0)).getD j 0 * 2 ^ (7 - j) := by
          intro j hj
          simp only [text_to_bits]
          rw [flatMap_uniform_getD byte_bits 8 byte_bits_length msg i j hi
            (Finset.mem_range.mp hj)]
        rw [Finset.sum_congr rfl hsum]
        refine byte_pack_unpack _ (h _ ?_)
        rw [getD_eq_getElem msg i hi]
        exact List.getElem_mem hi
      calc (List.range msg.length).map
            (fun i => ∑ j ∈ Finset.range 8, (text_to_bits msg).getD (8 * i + j) 0 * 2 ^ (7 - j))
          = (List.range msg.length).map (fun i => msg.getD i 0) := by
            apply List.map_congr_left
            intro i hi
            exact hcongr i (List.mem_range.mp hi)
        _ = msg := map_range_getD msg
    rw [hmap]
    exact List.take_of_length_le le_rfl

theorem bits_to_text_length (bits : List ℕ) (expected_bytes : ℕ)
    (hlen : bits.length = 8 * expected_bytes) :
    (bits_to_text bits expected_bytes).length = expected_bytes := by
  rcases Nat.eq_zero_or_pos expected_bytes with he | he
  · subst he
    have : bits = [] := List.eq_nil_of_length_eq_zero (by omega)
    subst this
    simp [bits_to_text]
  · have hne : ¬(bits.length = 0) := by omega
    rw [bits_to_text, if_neg hne]
    have htake : bits.take (expected_bytes * 8) = bits :=
      List.take_of_length_le (by omega)
    simp only [htake]
    have hmod : bits.length % 8 = 0 := by omega
    rw [hmod]
    simp only [Nat.sub_zero, Nat.mod_self, List.replicate_zero, List.append_nil]
    have hdiv : bits.length / 8 = expected_bytes := by omega
    rw [hdiv]
    simp

/-! ### Coding-scheme lemmas -/

theorem xor_le_one {a b : ℕ} (ha : a ≤ 1) (hb : b ≤ 1) : a ^^^ b ≤ 1 := by
  interval_cases a <;> interval_cases b <;> decide

theorem manchester_pair_length (b : ℕ) :
    ((fun b : ℕ => if b ≠ 0 then [1, 0] else [0, 1]) b).length = 2 := by
  by_cases hb : b ≠ 0 <;> simp [hb]

theorem encode_bits_nrz_roundtrip (bits : List ℕ) :
    decode_bits (encode_bits bits CodingScheme.nrz).1 CodingScheme.nrz
      (encode_bits bits CodingScheme.nrz).2 = bits := by
  simp [encode_bits, decode_bits]

theorem encode_bits_manchester_roundtrip (bits : List ℕ) (h : ∀ b ∈ bits, b ≤ 1) :
    decode_bits (encode_bits bits CodingScheme.manchester).1 CodingScheme.manchester
      (encode_bits bits CodingScheme.manchester).2 = bits := by
  have hlen : (bits.flatMap fun b => if b ≠ 0 then [1, 0] else [0, 1]).length
      = 2 * bits.length :=
    length_flatMap_uniform _ 2 manchester_pair_length bits
  simp only [encode_bits, decode_bits, Option.getD_some]
  rw [hlen]
  have hdiv : 2 * bits.length / 2 = bits.length := by omega
  rw [hdiv]
  have hmap : (List.range bits.length).map (fun i =>
      if (bits.flatMap fun b => if b ≠ 0 then [1, 0] else [0, 1]).getD (2 * i + 1) 0 <
          (bits.flatMap fun b => if b ≠ 0 then [1, 0] else [0, 1]).getD (2 * i) 0 then 1
      else 0) = bits := by
    calc (List.range bits.length).map (fun i =>
          if (bits.flatMap fun b => if b ≠ 0 then [1, 0] else [0, 1]).getD (2 * i + 1) 0 <
              (bits.flatMap fun b => if b ≠ 0 then [1, 0] else [0, 1]).getD (2 * i) 0 then 1
          else 0)
        = (List.range bits.length).map (fun i => bits.getD i 0) := by
          apply List.map_congr_left
          intro i hi
          have hi' := List.mem_range.mp hi
          have h0 := flatMap_uniform_getD _ 2 manchester_pair_length bits i 0 hi'
            (by norm_num)
          have h1 := flatMap_uniform_getD _ 2 manchester_pair_length bits i 1 hi'
            (by norm_num)
          simp only [Nat.add_zero] at h0
          rw [h1, h0]
          have hb : bits.getD i 0 = 0 ∨ bits.getD i 0 = 1 := by
            have := getD_of_boolean bits h i; omega
          rcases hb with hb | hb <;> rw [hb] <;> simp
      _ = bits := map_range_getD bits
  rw [hmap, List.take_length]

theorem encode_bits_rep3_roundtrip (bits : List ℕ) (h : ∀ b ∈ bits, b ≤ 1) :
    decode_bits (encode_bits bits CodingScheme.rep3).1 CodingScheme.rep3
      (encode_bits bits CodingScheme.rep3).2 = bits := by
  have htriple : ∀ b : ℕ, ([b, b, b]).length = 3 := fun b => rfl
  have hlen : (bits.flatMap fun b => [b, b, b]).length = 3 * bits.length :=
    length_flatMap_uniform _ 3 htriple bits
  simp only [encode_bits, decode_bits, Option.getD_some]
  rw [hlen]
  have hdiv : 3 * bits.length / 3 = bits.length := by omega
  rw [hdiv]
  have hmap : (List.range bits.length).map (fun i =>
      if (3 + 1) / 2 ≤ ∑ j ∈ Finset.range 3, (bits.flatMap fun b => [b, b, b]).getD (3 * i + j) 0
      then 1 else 0) = bits := by
    calc (List.range bits.length).map (fun i =>
          if (3 + 1) / 2 ≤ ∑ j ∈ Finset.range 3,
              (bits.flatMap fun b => [b, b, b]).getD (3 * i + j) 0 then 1 else 0)
        = (List.range bits.length).map (fun i => bits.getD i 0) := by
          apply List.map_congr_left
          intro i hi
          have hi' := List.mem_range.mp hi
          have h0 := flatMap_uniform_getD _ 3 htriple bits i 0 hi' (by norm_num)
          have h1 := flatMap_uniform_getD _ 3 htriple bits i 1 hi' (by norm_num)
          have h2 := flatMap_uniform_getD _ 3 htriple bits i 2 hi' (by norm_num)
          rw [Finset.sum_range_succ, Finset.sum_range_succ, Finset.sum_range_one, h1, h2]
          rw [show 3 * i = 3 * i + 0 from rfl, h0]
          have hb : bits.getD i 0 = 0 ∨ bits.getD i 0 = 1 := by
            have := getD_of_boolean bits h i; omega
          rcases hb with hb | hb <;> rw [hb] <;> simp
      _ = bits := map_range_getD bits
  rw [hmap, List.take_length]

theorem hamming_encode_block_length (d1 d2 d3 d4 : ℕ) :
    (hamming_encode_block d1 d2 d3 d4).length = 7 := rfl

theorem hamming_syndrome_encode_block (d1 d2 d3 d4 : ℕ) (h1 : d1 ≤ 1) (h2 : d2 ≤ 1)
    (h3 : d3 ≤ 1) (h4 : d4 ≤ 1) :
    hamming_syndrome (hamming_encode_block d1 d2 d3 d4) = 0 := by
  interval_cases d1 <;> interval_cases d2 <;> interval_cases d3 <;> interval_cases d4 <;>
    decide

theorem hamming_correct_encode_block (d1 d2 d3 d4 : ℕ) (h1 : d1 ≤ 1) (h2 : d2 ≤ 1)
    (h3 : d3 ≤ 1) (h4 : d4 ≤ 1) :
    hamming_correct (hamming_encode_block d1 d2 d3 d4) = hamming_encode_block d1 d2 d3 d4 := by
  rw [hamming_correct, if_pos (hamming_syndrome_encode_block d1 d2 d3 d4 h1 h2 h3 h4)]

theorem hamming_data_bits_encode_block (d1 d2 d3 d4 : ℕ) :
    hamming_data_bits (hamming_encode_block d1 d2 d3 d4) = [d1, d2, d3, d4] := rfl

theorem flatMap_congr_mem (l : List ℕ) (F G : ℕ → List ℕ) (h : ∀ x ∈ l, F x = G x) :
    l.flatMap F = l.flatMap G := by
  induction l with
  | nil => rfl
  | cons a t ih =>
    simp only [List.flatMap_cons, h a (List.mem_cons_self a t)]
    rw [ih fun x hx => h x (List.mem_cons_of_mem a hx)]

theorem hamming_block_of_encoded (padded enc : List ℕ) (B : ℕ)
    (henc : enc = (List.range B).flatMap fun i =>
      hamming_encode_block (padded.getD (4 * i) 0) (padded.getD (4 * i + 1) 0)
        (padded.getD (4 * i + 2) 0) (padded.getD (4 * i + 3) 0))
    (i : ℕ) (hi : i < B) :
    hamming_block enc i
      = hamming_encode_block (padded.getD (4 * i) 0) (padded.getD (4 * i + 1) 0)
          (padded.getD (4 * i + 2) 0) (padded.getD (4 * i + 3) 0) := by
  set g : ℕ → List ℕ := fun i =>
    hamming_encode_block (padded.getD (4 * i) 0) (padded.getD (4 * i + 1) 0)
      (padded.getD (4 * i + 2) 0) (padded.getD (4 * i + 3) 0) with hg_def
  have hg : ∀ i, (g i).length = 7 := fun i => rfl
  have hblock : ∀ j < 7, enc.getD (7 * i + j) 0 = (g i).getD j 0 := by
    intro j hj
    rw [henc, flatMap_uniform_getD g 7 hg (List.range B) i j (by simpa using hi) hj]
    congr 1
    rw [getD_eq_getElem _ i (by simpa using hi), List.getElem_range]
  have hmap := map_range_getD (g i)
  rw [hg i] at hmap
  rw [hamming_block]
  calc (List.range 7).map (fun j => enc.getD (7 * i + j) 0)
      = (List.range 7).map (fun j => (g i).getD j 0) := by
        apply List.map_congr_left
        intro j hj
        exact hblock j (List.mem_range.mp hj)
    _ = g i := hmap

theorem hamming_stream_roundtrip (padded enc : List ℕ) (B : ℕ)
    (h4 : padded.length = 4 * B) (hb : ∀ x ∈ padded, x ≤ 1)
    (henc : enc = (List.range B).flatMap fun i =>
      hamming_encode_block (padded.getD (4 * i) 0) (padded.getD (4 * i + 1) 0)
        (padded.getD (4 * i + 2) 0) (padded.getD (4 * i + 3) 0)) :
    (List.range (enc.length / 7)).flatMap
      (fun i => hamming_data_bits (hamming_correct (hamming_block enc i))) = padded := by
  set g : ℕ → List ℕ := fun i =>
    hamming_encode_block (padded.getD (4 * i) 0) (padded.getD (4 * i + 1) 0)
      (padded.getD (4 * i + 2) 0) (padded.getD (4 * i + 3) 0) with hg_def
  have hg : ∀ i, (g i).length = 7 := fun i => rfl
  have henclen : enc.length = 7 * B := by
    rw [henc, length_flatMap_uniform g 7 hg]
    simp
  have hdiv7 : enc.length / 7 = B := by omega
  rw [hdiv7]
  have hstep : ∀ i ∈ List.range B,
      hamming_data_bits (hamming_correct (hamming_block enc i))
        = [padded.getD (4 * i) 0, padded.getD (4 * i + 1) 0, padded.getD (4 * i + 2) 0,
           padded.getD (4 * i + 3) 0] := by
    intro i hi
    have hi' := List.mem_range.mp hi
    rw [hamming_block_of_encoded padded enc B henc i hi']
    rw [hamming_correct_encode_block _ _ _ _ (getD_of_boolean padded hb _)
      (getD_of_boolean padded hb _) (getD_of_boolean padded hb _)
      (getD_of_boolean padded hb _)]
    exact hamming_data_bits_encode_block _ _ _ _
  rw [flatMap_congr_mem _ _ _ hstep]
  set q : ℕ → List ℕ := fun i =>
    [padded.getD (4 * i) 0, padded.getD (4 * i + 1) 0, padded.getD (4 * i + 2) 0,
     padded.getD (4 * i + 3) 0] with hq_def
  have hqlen : ∀ i, (q i).length = 4 := fun i => rfl
  apply List.ext_getElem
  · rw [length_flatMap_uniform q 4 hqlen]
    simp [h4]
  · intro n h₁ h₂
    have hn4 : n < 4 * B := by
      rw [length_flatMap_uniform q 4 hqlen] at h₁
      simpa using h₁
    rw [← getD_eq_getElem _ n h₁, ← getD_eq_getElem _ n h₂]
    have hiB : n / 4 < B := Nat.div_lt_of_lt_mul (by omega)
    have hgetq := flatMap_uniform_getD q 4 hqlen (List.range B) (n / 4) (n % 4)
      (by simpa using hiB) (Nat.mod_lt n (by norm_num))
    have hrange : (List.range B).getD (n / 4) 0 = n / 4 := by
      rw [getD_eq_getElem _ _ (by simpa using hiB), List.getElem_range]
    rw [hrange] at hgetq
    have hsplit : 4 * (n / 4) + n % 4 = n := Nat.div_add_mod n 4
    rw [hsplit] at hgetq
    rw [hgetq]
    have hcase : n % 4 = 0 ∨ n % 4 = 1 ∨ n % 4 = 2 ∨ n % 4 = 3 := by omega
    rcases hcase with hc | hc | hc | hc <;> rw [hc] <;>
      simp only [hq_def, List.getD_cons_zero, List.getD_cons_succ] <;>
      congr 1 <;> omega

theorem encode_bits_hamming_roundtrip (bits : List ℕ) (h : ∀ b ∈ bits, b ≤ 1) :
    decode_bits (encode_bits bits CodingScheme.hamming74).1 CodingScheme.hamming74
      (encode_bits bits CodingScheme.hamming74).2 = bits := by
  set p := bits.length with hp_def
  set pad := (4 - p % 4) % 4 with hpad_def
  set padded := bits ++ List.replicate pad 0 with hpadded_def
  have hpadded_len : padded.length = p + pad := by simp [hpadded_def]
  have hmod4 : (p + pad) % 4 = 0 := by omega
  set B := padded.length / 4 with hB_def
  have h4B : padded.length = 4 * B := by omega
  have hbool : ∀ x ∈ padded, x ≤ 1 := by
    intro x hx
    rcases List.mem_append.mp hx with hx | hx
    · exact h x hx
    · rw [List.eq_of_mem_replicate hx]; exact Nat.zero_le 1
  have hstream := hamming_stream_roundtrip padded _ B h4B hbool rfl
  simp only [encode_bits, decode_bits, Option.getD_some]
  rw [hstream]
  by_cases hpz : pad = 0
  · rw [if_pos hpz]
    have : padded = bits := by
      rw [hpadded_def, hpz, List.replicate_zero, List.append_nil]
    rw [this]
    simp
  · rw [if_neg hpz]
    have hsub : padded.length - pad = p := by omega
    rw [hsub]
    have htakep : padded.take p = bits := by
      rw [hpadded_def, hp_def, List.take_left]
    rw [htakep]
    simp

/-! ### Further coding lemmas: syndrome bounds, mutation model -/

theorem hamming_correct_length (c : List ℕ) : (hamming_correct c).length = c.length := by
  rw [hamming_correct]
  by_cases hs : hamming_syndrome c = 0
  · rw [if_pos hs]
  · rw [if_neg hs, List.length_set]

theorem hamming_block_length (bits : List ℕ) (i : ℕ) : (hamming_block bits i).length = 7 := by
  simp [hamming_block]

theorem hamming_block_boolean (bits : List ℕ) (h : ∀ b ∈ bits, b ≤ 1) (i : ℕ) :
    ∀ x ∈ hamming_block bits i, x ≤ 1 := by
  intro x hx
  simp only [hamming_block, List.mem_map] at hx
  obtain ⟨j, _, rfl⟩ := hx
  exact getD_of_boolean bits h _

theorem hamming_block_getD (bits : List ℕ) (i j : ℕ) (hj : j < 7) :
    (hamming_block bits i).getD j 0 = bits.getD (7 * i + j) 0 := by
  rw [getD_eq_getElem _ j (by rw [hamming_block_length]; exact hj)]
  simp [hamming_block]

theorem hamming_syndrome_le_seven (c : List ℕ) (hc : ∀ x ∈ c, x ≤ 1) :
    hamming_syndrome c ≤ 7 := by
  have h0 := getD_of_boolean c hc 0
  have h1 := getD_of_boolean c hc 1
  have h2 := getD_of_boolean c hc 2
  have h3 := getD_of_boolean c hc 3
  have h4 := getD_of_boolean c hc 4
  have h5 := getD_of_boolean c hc 5
  have h6 := getD_of_boolean c hc 6
  have hs1 : c.getD 0 0 ^^^ c.getD 2 0 ^^^ c.getD 4 0 ^^^ c.getD 6 0 ≤ 1 :=
    xor_le_one (xor_le_one (xor_le_one h0 h2) h4) h6
  have hs2 : c.getD 1 0 ^^^ c.getD 2 0 ^^^ c.getD 5 0 ^^^ c.getD 6 0 ≤ 1 :=
    xor_le_one (xor_le_one (xor_le_one h1 h2) h5) h6
  have hs3 : c.getD 3 0 ^^^ c.getD 4 0 ^^^ c.getD 5 0 ^^^ c.getD 6 0 ≤ 1 :=
    xor_le_one (xor_le_one (xor_le_one h3 h4) h5) h6
  rw [hamming_syndrome]
  omega

theorem xor_one_ne (v : ℕ) : v ^^^ 1 ≠ v := by
  intro hv
  have h2 : v ^^^ (v ^^^ 1) = v ^^^ v := by rw [hv]
  rw [← Nat.xor_assoc, Nat.xor_self, Nat.zero_xor] at h2
  exact one_ne_zero h2

/-! ### Cache lemmas -/

theorem lookup_eq_none_of_not_mem {V : Type} (l : List (String × V)) (k : String)
    (h : k ∉ l.map Prod.fst) : List.lookup k l = none := by
  induction l with
  | nil => rfl
  | cons e t ih =>
    have hne : ¬(k == e.1) = true := by
      intro hk
      exact h (by simp [beq_iff_eq.mp hk])
    cases e with
    | mk a b =>
      have hfalse : (k == a) = false := by
        cases hkb : k == a
        · rfl
        · exact absurd hkb hne
      simp only [List.lookup, hfalse]
      exact ih fun hk => h (List.mem_cons_of_mem _ hk)

theorem any_key_eq_false {V : Type} (l : List (String × V)) (k : String)
    (h : k ∉ l.map Prod.fst) : (l.any fun e => e.1 == k) = false := by
  rw [List.any_eq_false]
  intro e he
  simp only [beq_iff_eq]
  intro hek
  exact h (List.mem_map.mpr ⟨e, he, hek⟩)

theorem any_key_eq_true {V : Type} (l : List (String × V)) (k : String)
    (h : k ∈ l.map Prod.fst) : (l.any fun e => e.1 == k) = true := by
  rw [List.any_eq_true]
  obtain ⟨e, he, hek⟩ := List.mem_map.mp h
  exact ⟨e, he, beq_iff_eq.mpr hek⟩

/-! ### Carrier lemmas

The mean of the squared carrier over any window of at least two consecutive
samples is strictly positive: the cosine sampled at `κ·m, κ·(m+1)` cannot
vanish at both points (the two zeros would force `κ` to be an integer
multiple of `π`, at which cosine has absolute value 1). -/

theorem cos_consecutive_ne_zero (κ : ℝ) (m : ℕ) :
    Real.cos (κ * m) = 0 → Real.cos (κ * m + κ) = 0 → False := by
  intro h0 h1
  obtain ⟨k, hk⟩ := Real.cos_eq_zero_iff.mp h0
  obtain ⟨l, hl⟩ := Real.cos_eq_zero_iff.mp h1
  have hκ : κ = ((l - k : ℤ) : ℝ) * Real.pi := by
    have hκ' : κ = (κ * m + κ) - κ * m := by ring
    rw [hκ', hl, hk]
    push_cast
    ring
  have hzero : ((2 * ((l - k) * (m : ℤ)) - (2 * k + 1) : ℤ) : ℝ) * (Real.pi / 2) = 0 := by
    have hk' := hk
    rw [hκ] at hk'
    push_cast at hk' ⊢
    ring_nf at hk' ⊢
    linarith
  have hπ2 : Real.pi / 2 ≠ 0 := ne_of_gt (by positivity)
  have hint : 2 * ((l - k) * (m : ℤ)) - (2 * k + 1) = 0 := by
    by_contra hne
    exact mul_ne_zero (Int.cast_ne_zero.mpr hne) hπ2 hzero
  obtain ⟨z, hzdef⟩ : ∃ z : ℤ, (l - k) * (m : ℤ) = z := ⟨_, rfl⟩
  rw [hzdef] at hint
  omega

theorem sum_cos_sq_pos (κ : ℝ) (N len : ℕ) (hlen : 2 ≤ len) :
    0 < ∑ n ∈ Finset.range len, Real.cos (κ * ((N + n : ℕ) : ℝ)) ^ 2 := by
  apply Finset.sum_pos'
  · intro i _
    exact sq_nonneg _
  · by_cases h0 : Real.cos (κ * (N : ℝ)) = 0
    · refine ⟨1, Finset.mem_range.mpr (by omega), ?_⟩
      have hne : Real.cos (κ * ((N + 1 : ℕ) : ℝ)) ≠ 0 := by
        intro hc
        apply cos_consecutive_ne_zero κ N h0
        have harg : κ * ((N + 1 : ℕ) : ℝ) = κ * N + κ := by push_cast; ring
        rwa [harg] at hc
      exact lt_of_le_of_ne (sq_nonneg _) (Ne.symm (pow_ne_zero 2 hne))
    · refine ⟨0, Finset.mem_range.mpr (by omega), ?_⟩
      have hne : Real.cos (κ * ((N + 0 : ℕ) : ℝ)) ≠ 0 := by simpa using h0
      exact lt_of_le_of_ne (sq_nonneg _) (Ne.symm (pow_ne_zero 2 hne))

theorem sum_range_mul_sum (a b : ℕ) (f : ℕ → ℝ) :
    ∑ i ∈ Finset.range a, ∑ j ∈ Finset.range b, f (i * b + j)
      = ∑ n ∈ Finset.range (a * b), f n := by
  induction a with
  | zero => simp
  | succ a ih =>
    rw [Finset.sum_range_succ, ih, Nat.succ_mul, Finset.sum_range_add]

/-! ### Named pipeline projections

`simulate_run` is one long pipeline; the following definitions name each
intermediate value (with the same expressions, in the same order) so that
facts about a single stage can be stated and reused.  `simulate_run_eq`
ties them to `simulate_run`. -/

def sim_encoded (message : List ℕ) (scheme : CodingScheme) : List ℕ :=
  (encode_bits (text_to_bits message) scheme).1

def sim_meta (message : List ℕ) (scheme : CodingScheme) : CodingMeta :=
  (encode_bits (text_to_bits message) scheme).2

noncomputable def sim_spread (sha256 : List ℕ → List ℕ) (rng : ℕ → ℕ → Bool)
    (message : List ℕ) (tx_secret : String) (scheme : CodingScheme) : Wave :=
  spread_bits (sim_encoded message scheme)
    (generate_prn sha256 rng tx_secret (chips_per_bit_of tx_secret))
    (chips_per_bit_of tx_secret)

noncomputable def sim_chip_waveform (sha256 : List ℕ → List ℕ) (rng : ℕ → ℕ → Bool)
    (message : List ℕ) (tx_secret : String) (oversampling : ℕ)
    (scheme : CodingScheme) : Wave :=
  repeat_wave (sim_spread sha256 rng message tx_secret scheme) oversampling

noncomputable def sim_tx_signal (sha256 : List ℕ → List ℕ) (rng : ℕ → ℕ → Bool)
    (message : List ℕ) (tx_secret : String) (chip_rate carrier_freq : ℝ)
    (oversampling : ℕ) (scheme : CodingScheme) : Wave :=
  ⟨(sim_chip_waveform sha256 rng message tx_secret oversampling scheme).len,
   fun n => (sim_chip_waveform sha256 rng message tx_secret oversampling scheme).amp n *
     carrier_of carrier_freq (chip_rate * (oversampling : ℝ)) n⟩

noncomputable def sim_channel (sha256 : List ℕ → List ℕ) (rng : ℕ → ℕ → Bool)
    (noise : ℕ → ℝ) (message : List ℕ) (tx_secret : String)
    (chip_rate carrier_freq noise_power noise_bandwidth : ℝ) (oversampling : ℕ)
    (scheme : CodingScheme) : Wave :=
  band_limited_awgn (sim_tx_signal sha256 rng message tx_secret chip_rate carrier_freq
      oversampling scheme) noise_power noise_bandwidth (chip_rate * (oversampling : ℝ)) noise

noncomputable def sim_rx_demod (sha256 : List ℕ → List ℕ) (rng : ℕ → ℕ → Bool)
    (noise : ℕ → ℝ) (message : List ℕ) (tx_secret : String)
    (chip_rate carrier_freq noise_power noise_bandwidth : ℝ) (oversampling : ℕ)
    (scheme : CodingScheme) : Wave :=
  ⟨(sim_channel sha256 rng noise message tx_secret chip_rate carrier_freq noise_power
      noise_bandwidth oversampling scheme).len,
   fun n => (sim_channel sha256 rng noise message tx_secret chip_rate carrier_freq
      noise_power noise_bandwidth oversampling scheme).amp n *
     carrier_of carrier_freq (chip_rate * (oversampling : ℝ)) n⟩

noncomputable def sim_despread (sha256 : List ℕ → List ℕ) (rng : ℕ → ℕ → Bool)
    (noise : ℕ → ℝ) (message : List ℕ) (tx_secret rx_secret : String)
    (chip_rate carrier_freq noise_power noise_bandwidth : ℝ) (oversampling : ℕ)
    (scheme : CodingScheme) : Wave :=
  ⟨(chunk_mean (sim_rx_demod sha256 rng noise message tx_secret chip_rate carrier_freq
      noise_power noise_bandwidth oversampling scheme) oversampling).len,
   fun n => (chunk_mean (sim_rx_demod sha256 rng noise message tx_secret chip_rate
      carrier_freq noise_power noise_bandwidth oversampling scheme) oversampling).amp n *
     (generate_prn sha256 rng rx_secret (chips_per_bit_of tx_secret)).amp
       (n % chips_per_bit_of tx_secret)⟩

noncomputable def sim_bit_metrics (sha256 : List ℕ → List ℕ) (rng : ℕ → ℕ → Bool)
    (noise : ℕ → ℝ) (message : List ℕ) (tx_secret rx_secret : String)
    (chip_rate carrier_freq noise_power noise_bandwidth : ℝ) (oversampling : ℕ)
    (scheme : CodingScheme) : Wave :=
  chunk_mean (sim_despread sha256 rng noise message tx_secret rx_secret chip_rate
    carrier_freq noise_power noise_bandwidth oversampling scheme)
    (chips_per_bit_of tx_secret)

noncomputable def sim_recovered_bits (sha256 : List ℕ → List ℕ) (rng : ℕ → ℕ → Bool)
    (noise : ℕ → ℝ) (message : List ℕ) (tx_secret rx_secret : String)
    (chip_rate carrier_freq noise_power noise_bandwidth : ℝ) (oversampling : ℕ)
    (scheme : CodingScheme) : List ℕ :=
  (List.range (sim_bit_metrics sha256 rng noise message tx_secret rx_secret chip_rate
      carrier_freq noise_power noise_bandwidth oversampling scheme).len).map fun b =>
    if 0 < (sim_bit_metrics sha256 rng noise message tx_secret rx_secret chip_rate
        carrier_freq noise_power noise_bandwidth oversampling scheme).amp b then 1 else 0

noncomputable def sim_decoded_bits (sha256 : List ℕ → List ℕ) (rng : ℕ → ℕ → Bool)
    (noise : ℕ → ℝ) (message : List ℕ) (tx_secret rx_secret : String)
    (chip_rate carrier_freq noise_power noise_bandwidth : ℝ) (oversampling : ℕ)
    (scheme : CodingScheme) : List ℕ :=
  decode_bits (sim_recovered_bits sha256 rng noise message tx_secret rx_secret chip_rate
    carrier_freq noise_power noise_bandwidth oversampling scheme) scheme
    (sim_meta message scheme)

noncomputable def sim_decoder_waveform (sha256 : List ℕ → List ℕ) (rng : ℕ → ℕ → Bool)
    (noise : ℕ → ℝ) (message : List ℕ) (tx_secret rx_secret : String)
    (chip_rate carrier_freq noise_power noise_bandwidth : ℝ) (oversampling : ℕ)
    (scheme : CodingScheme) : Wave :=
  repeat_wave (nrz_wave
    (if (sim_decoded_bits sha256 rng noise message tx_secret rx_secret chip_rate
        carrier_freq noise_power noise_bandwidth oversampling scheme).length ≠ 0 then
      sim_decoded_bits sha256 rng noise message tx_secret rx_secret chip_rate carrier_freq
        noise_power noise_bandwidth oversampling scheme
    else
      sim_recovered_bits sha256 rng noise message tx_secret rx_secret chip_rate carrier_freq
        noise_power noise_bandwidth oversampling scheme))
    (chips_per_bit_of tx_secret * oversampling)

noncomputable def sim_result (sha256 : List ℕ → List ℕ) (rng : ℕ → ℕ → Bool)
    (noise : ℕ → ℝ) (sim_id : String) (message : List ℕ) (tx_secret rx_secret : String)
    (chip_rate carrier_freq noise_power noise_bandwidth : ℝ) (oversampling : ℕ)
    (scheme : CodingScheme) : SimulationResult :=
  { simulation_id := sim_id
    decoded_message := bits_to_text (sim_decoded_bits sha256 rng noise message tx_secret
      rx_secret chip_rate carrier_freq noise_power noise_bandwidth oversampling scheme)
      message.length
    mismatch := bits_to_text (sim_decoded_bits sha256 rng noise message tx_secret rx_secret
      chip_rate carrier_freq noise_power noise_bandwidth oversampling scheme)
      message.length != message
    stages :=
      [(StageName.source,
        ⟨build_source_waveform (sim_encoded message scheme)
          (chips_per_bit_of tx_secret * oversampling), chip_rate * (oversampling : ℝ)⟩),
       (StageName.spreader,
        ⟨sim_chip_waveform sha256 rng message tx_secret oversampling scheme,
         chip_rate * (oversampling : ℝ)⟩),
       (StageName.modulator,
        ⟨sim_tx_signal sha256 rng message tx_secret chip_rate carrier_freq oversampling
          scheme, chip_rate * (oversampling : ℝ)⟩),
       (StageName.channel,
        ⟨sim_channel sha256 rng noise message tx_secret chip_rate carrier_freq noise_power
          noise_bandwidth oversampling scheme, chip_rate * (oversampling : ℝ)⟩),
       (StageName.correlator,
        ⟨sim_rx_demod sha256 rng noise message tx_secret chip_rate carrier_freq noise_power
          noise_bandwidth oversampling scheme, chip_rate * (oversampling : ℝ)⟩),
       (StageName.decoder,
        ⟨sim_decoder_waveform sha256 rng noise message tx_secret rx_secret chip_rate
          carrier_freq noise_power noise_bandwidth oversampling scheme,
         chip_rate * (oversampling : ℝ)⟩)] }

theorem chips_per_bit_of_pos (tx_secret : String) : 0 < chips_per_bit_of tx_secret :=
  lt_of_lt_of_le (by norm_num) (le_max_left 8 (tx_secret.length * 4))

theorem simulate_run_eq (sha256 : List ℕ → List ℕ) (rng : ℕ → ℕ → Bool)
    (noise : ℕ → ℝ) (sim_id : String) (message : List ℕ) (tx_secret rx_secret : String)
    (chip_rate carrier_freq noise_power noise_bandwidth : ℝ) (oversampling : ℕ)
    (scheme : CodingScheme) (hos : oversampling ≠ 0) :
    simulate_run sha256 rng noise sim_id message tx_secret rx_secret chip_rate carrier_freq
      noise_power noise_bandwidth oversampling scheme
      = Except.ok (sim_result sha256 rng noise sim_id message tx_secret rx_secret chip_rate
          carrier_freq noise_power noise_bandwidth oversampling scheme) := by
  have hcpb : chips_per_bit_of tx_secret ≠ 0 :=
    Nat.pos_iff_ne_zero.mp (chips_per_bit_of_pos tx_secret)
  simp only [simulate_run, chunk_mean_e, hos, if_false, hcpb, reduceIte]
  rfl

/-! ### Length lemmas for the coder and the pipeline stages -/

theorem encode_bits_payload_meta (bits : List ℕ) (scheme : CodingScheme) :
    (encode_bits bits scheme).2.payload_bits = some bits.length := by
  cases scheme <;> simp [encode_bits]

theorem encode_bits_nrz_length (bits : List ℕ) :
    (encode_bits bits CodingScheme.nrz).1.length = bits.length := rfl

theorem encode_bits_manchester_length (bits : List ℕ) :
    (encode_bits bits CodingScheme.manchester).1.length = 2 * bits.length :=
  length_flatMap_uniform _ 2 manchester_pair_length bits

theorem encode_bits_rep3_length (bits : List ℕ) :
    (encode_bits bits CodingScheme.rep3).1.length = 3 * bits.length :=
  length_flatMap_uniform (fun b => [b, b, b]) 3 (fun _ => rfl) bits

theorem length_flatMap_range_uniform (k B : ℕ) (f : ℕ → List ℕ)
    (hf : ∀ i, (f i).length = k) : ((List.range B).flatMap f).length = k * B := by
  rw [length_flatMap_uniform f k hf]
  simp

theorem encode_bits_hamming_length (bits : List ℕ) :
    (encode_bits bits CodingScheme.hamming74).1.length
      = 7 * ((bits.length + (4 - bits.length % 4) % 4) / 4) := by
  simp only [encode_bits]
  refine Eq.trans (length_flatMap_range_uniform 7
    ((bits ++ List.replicate ((4 - bits.length % 4) % 4) 0).length / 4)
    (fun i => hamming_encode_block
      ((bits ++ List.replicate ((4 - bits.length % 4) % 4) 0).getD (4 * i) 0)
      ((bits ++ List.replicate ((4 - bits.length % 4) % 4) 0).getD (4 * i + 1) 0)
      ((bits ++ List.replicate ((4 - bits.length % 4) % 4) 0).getD (4 * i + 2) 0)
      ((bits ++ List.replicate ((4 - bits.length % 4) % 4) 0).getD (4 * i + 3) 0))
    (fun _ => rfl)) ?_
  simp

theorem encode_bits_length_zero_iff (bits : List ℕ) (scheme : CodingScheme) :
    (encode_bits bits scheme).1.length = 0 ↔ bits.length = 0 := by
  cases scheme
  · rw [encode_bits_nrz_length]
  · rw [encode_bits_manchester_length]; omega
  · rw [encode_bits_rep3_length]; omega
  · rw [encode_bits_hamming_length]; omega

theorem encode_bits_boolean (bits : List ℕ) (h : ∀ b ∈ bits, b ≤ 1) (scheme : CodingScheme) :
    ∀ x ∈ (encode_bits bits scheme).1, x ≤ 1 := by
  cases scheme <;> intro x hx
  · exact h x hx
  · simp only [encode_bits, List.mem_flatMap] at hx
    obtain ⟨b, _, hb⟩ := hx
    by_cases hbz : b ≠ 0 <;> simp [hbz] at hb <;> rcases hb with rfl | rfl <;> norm_num
  · simp only [encode_bits, List.mem_flatMap] at hx
    obtain ⟨b, hbmem, hb⟩ := hx
    simp only [List.mem_cons, List.not_mem_nil, or_false] at hb
    have hxb : x = b := by rcases hb with rfl | rfl | rfl <;> rfl
    rw [hxb]
    exact h b hbmem
  · simp only [encode_bits, List.mem_flatMap] at hx
    obtain ⟨i, _, hb⟩ := hx
    have hpadded : ∀ y ∈ bits ++ List.replicate ((4 - bits.length % 4) % 4) 0, y ≤ 1 := by
      intro y hy
      rcases List.mem_append.mp hy with hy | hy
      · exact h y hy
      · rw [List.eq_of_mem_replicate hy]; exact Nat.zero_le 1
    have hd : ∀ k : ℕ,
        (bits ++ List.replicate ((4 - bits.length % 4) % 4) 0).getD k 0 ≤ 1 :=
      getD_of_boolean _ hpadded
    simp only [hamming_encode_block, List.mem_cons, List.not_mem_nil, or_false] at hb
    rcases hb with rfl | rfl | rfl | rfl | rfl | rfl | rfl <;>
      first
        | exact hd _
        | exact xor_le_one (xor_le_one (hd _) (hd _)) (hd _)

theorem decode_bits_payload_zero_length (bits : List ℕ) (scheme : CodingScheme) :
    (decode_bits bits scheme (encode_bits [] scheme).2).length = 0 := by
  cases scheme <;> simp [encode_bits, decode_bits]

theorem hamming_data_bits_length (c : List ℕ) : (hamming_data_bits c).length = 4 := rfl

theorem decode_bits_length (payload bits : List ℕ) (scheme : CodingScheme)
    (hlen : bits.length = (encode_bits payload scheme).1.length) :
    (decode_bits bits scheme (encode_bits payload scheme).2).length = payload.length := by
  cases scheme
  · rw [encode_bits_nrz_length] at hlen
    simp [encode_bits, decode_bits, hlen]
  · rw [encode_bits_manchester_length] at hlen
    simp only [encode_bits, decode_bits, Option.getD_some, List.length_take,
      List.length_map, List.length_range, hlen]
    omega
  · rw [encode_bits_rep3_length] at hlen
    simp only [encode_bits, decode_bits, Option.getD_some, List.length_take,
      List.length_map, List.length_range, hlen]
    omega
  · rw [encode_bits_hamming_length] at hlen
    simp only [encode_bits, decode_bits, Option.getD_some]
    have hdata : ((List.range (bits.length / 7)).flatMap fun i =>
        hamming_data_bits (hamming_correct (hamming_block bits i))).length
        = 4 * (bits.length / 7) := by
      rw [length_flatMap_uniform
        (fun i => hamming_data_bits (hamming_correct (hamming_block bits i))) 4
        (fun _ => rfl)]
      simp
    by_cases hpz : (4 - payload.length % 4) % 4 = 0
    · rw [if_pos hpz, List.length_take, hdata, hlen]
      omega
    · rw [if_neg hpz, List.length_take, List.length_take, hdata, hlen]
      omega

theorem repeat_wave_len (w : Wave) (k : ℕ) : (repeat_wave w k).len = w.len * k := rfl

theorem chunk_mean_len (w : Wave) (k : ℕ) : (chunk_mean w k).len = w.len / k := rfl

theorem band_limited_awgn_len (s : Wave) (a b c : ℝ) (nf : ℕ → ℝ) :
    (band_limited_awgn s a b c nf).len = s.len := by
  rw [band_limited_awgn]
  by_cases hg : a ≤ 0 ∨ b ≤ 0
  · rw [if_pos hg]
  · rw [if_neg hg]

theorem spread_bits_len (bits : List ℕ) (prn : Wave) (cpb : ℕ) :
    (spread_bits bits prn cpb).len = if bits.length = 0 then cpb else bits.length * cpb := by
  rw [spread_bits]
  by_cases hb : bits.length = 0
  · rw [if_pos hb, if_pos hb]
  · rw [if_neg hb, if_neg hb]

section SimFacts

variable (sha256 : List ℕ → List ℕ) (rng : ℕ → ℕ → Bool) (noise : ℕ → ℝ)
    (message : List ℕ) (tx_secret rx_secret : String)
    (chip_rate carrier_freq noise_power noise_bandwidth : ℝ) (oversampling : ℕ)
    (scheme : CodingScheme)

theorem sim_chip_waveform_len :
    (sim_chip_waveform sha256 rng message tx_secret oversampling scheme).len
      = (if (sim_encoded message scheme).length = 0 then chips_per_bit_of tx_secret
         else (sim_encoded message scheme).length * chips_per_bit_of tx_secret)
          * oversampling := by
  rw [sim_chip_waveform, repeat_wave_len, sim_spread, spread_bits_len]

theorem sim_tx_signal_len :
    (sim_tx_signal sha256 rng message tx_secret chip_rate carrier_freq oversampling
      scheme).len
      = (sim_chip_waveform sha256 rng message tx_secret oversampling scheme).len := rfl

theorem sim_channel_len :
    (sim_channel sha256 rng noise message tx_secret chip_rate carrier_freq noise_power
      noise_bandwidth oversampling scheme).len
      = (sim_chip_waveform sha256 rng message tx_secret oversampling scheme).len := by
  rw [sim_channel, band_limited_awgn_len, sim_tx_signal_len]

theorem sim_rx_demod_len :
    (sim_rx_demod sha256 rng noise message tx_secret chip_rate carrier_freq noise_power
      noise_bandwidth oversampling scheme).len
      = (sim_chip_waveform sha256 rng message tx_secret oversampling scheme).len := by
  rw [sim_rx_demod]
  exact sim_channel_len sha256 rng noise message tx_secret chip_rate carrier_freq
    noise_power noise_bandwidth oversampling scheme

theorem sim_bit_metrics_len (hos : oversampling ≠ 0) :
    (sim_bit_metrics sha256 rng noise message tx_secret rx_secret chip_rate carrier_freq
      noise_power noise_bandwidth oversampling scheme).len
      = if (sim_encoded message scheme).length = 0 then 1
        else (sim_encoded message scheme).length := by
  have hcpb := chips_per_bit_of_pos tx_secret
  rw [sim_bit_metrics, chunk_mean_len, sim_despread]
  show (chunk_mean (sim_rx_demod sha256 rng noise message tx_secret chip_rate carrier_freq
      noise_power noise_bandwidth oversampling scheme) oversampling).len
        / chips_per_bit_of tx_secret = _
  rw [chunk_mean_len, sim_rx_demod_len, sim_chip_waveform_len]
  by_cases hL : (sim_encoded message scheme).length = 0
  · rw [if_pos hL, if_pos hL, Nat.mul_div_cancel _ (Nat.pos_of_ne_zero hos),
      Nat.div_self hcpb]
  · rw [if_neg hL, if_neg hL, Nat.mul_div_cancel _ (Nat.pos_of_ne_zero hos),
      Nat.mul_div_cancel _ hcpb]

theorem sim_recovered_bits_length :
    (sim_recovered_bits sha256 rng noise message tx_secret rx_secret chip_rate carrier_freq
      noise_power noise_bandwidth oversampling scheme).length
      = (sim_bit_metrics sha256 rng noise message tx_secret rx_secret chip_rate
          carrier_freq noise_power noise_bandwidth oversampling scheme).len := by
  rw [sim_recovered_bits, List.length_map, List.length_range]

theorem sim_decoded_bits_length (hos : oversampling ≠ 0) :
    (sim_decoded_bits sha256 rng noise message tx_secret rx_secret chip_rate carrier_freq
      noise_power noise_bandwidth oversampling scheme).length
      = (text_to_bits message).length := by
  by_cases hp : (text_to_bits message).length = 0
  · have hnil : text_to_bits message = [] := List.eq_nil_of_length_eq_zero hp
    rw [sim_decoded_bits]
    simp only [sim_meta, hnil]
    rw [decode_bits_payload_zero_length]
    rfl
  · have hL : (sim_encoded message scheme).length ≠ 0 := by
      rw [sim_encoded]
      intro h0
      exact hp ((encode_bits_length_zero_iff _ _).mp h0)
    have hrec : (sim_recovered_bits sha256 rng noise message tx_secret rx_secret chip_rate
        carrier_freq noise_power noise_bandwidth oversampling scheme).length
        = (encode_bits (text_to_bits message) scheme).1.length := by
      rw [sim_recovered_bits_length, sim_bit_metrics_len sha256 rng noise message tx_secret
        rx_secret chip_rate carrier_freq noise_power noise_bandwidth oversampling scheme
        hos, if_neg hL, sim_encoded]
    rw [sim_decoded_bits]
    simp only [sim_meta]
    exact decode_bits_length (text_to_bits message) _ scheme hrec

end SimFacts

/-! ### The despreading identity

With matching secrets and zero noise, the soft metric of bit `b` is the NRZ
symbol of encoded bit `b` scaled by the (positive) mean of the squared
carrier over that bit's samples. -/

theorem chunk_mean_amp (w : Wave) (k i : ℕ) :
    (chunk_mean w k).amp i = (∑ j ∈ Finset.range k, w.amp (i * k + j)) / k := rfl

theorem repeat_wave_amp (w : Wave) (k n : ℕ) : (repeat_wave w k).amp n = w.amp (n / k) := rfl

theorem generate_prn_amp_sq (sha256 : List ℕ → List ℕ) (rng : ℕ → ℕ → Bool)
    (secret : String) (cpb i : ℕ) :
    (generate_prn sha256 rng secret cpb).amp i * (generate_prn sha256 rng secret cpb).amp i
      = 1 := by
  rw [generate_prn]
  by_cases h : rng (generate_seed sha256 secret) i <;> simp [h]

theorem chips_per_bit_of_ge_eight (tx_secret : String) : 8 ≤ chips_per_bit_of tx_secret :=
  le_max_left _ _

theorem sim_bit_metrics_amp (sha256 : List ℕ → List ℕ) (rng : ℕ → ℕ → Bool)
    (noise : ℕ → ℝ) (message : List ℕ) (tx_secret : String)
    (chip_rate carrier_freq noise_bandwidth : ℝ) (oversampling : ℕ)
    (scheme : CodingScheme) (hos : oversampling ≠ 0)
    (hL : ¬(sim_encoded message scheme).length = 0) (b : ℕ) :
    (sim_bit_metrics sha256 rng noise message tx_secret tx_secret chip_rate carrier_freq 0
      noise_bandwidth oversampling scheme).amp b
      = nrz ((sim_encoded message scheme).getD b 0) *
          ((∑ n ∈ Finset.range (chips_per_bit_of tx_secret * oversampling),
              Real.cos (2 * Real.pi * carrier_freq / (chip_rate * (oversampling : ℝ)) *
                ((b * chips_per_bit_of tx_secret * oversampling + n : ℕ) : ℝ)) ^ 2)
            / (oversampling : ℝ) / (chips_per_bit_of tx_secret : ℝ)) := by
  set cpb := chips_per_bit_of tx_secret with hcpb_def
  have hcpb_pos : 0 < cpb := chips_per_bit_of_pos tx_secret
  have hos_pos : 0 < oversampling := Nat.pos_of_ne_zero hos
  set κ := 2 * Real.pi * carrier_freq / (chip_rate * (oversampling : ℝ)) with hκ_def
  set prn := generate_prn sha256 rng tx_secret cpb with hprn_def
  have hchannel : sim_channel sha256 rng noise message tx_secret chip_rate carrier_freq 0
      noise_bandwidth oversampling scheme
      = sim_tx_signal sha256 rng message tx_secret chip_rate carrier_freq oversampling
          scheme := by
    rw [sim_channel, band_limited_awgn, if_pos (Or.inl le_rfl)]
  have hcar : ∀ m : ℕ,
      carrier_of carrier_freq (chip_rate * (oversampling : ℝ)) m = Real.cos (κ * m) := by
    intro m
    rw [carrier_of, hκ_def]
    congr 1
    ring
  have hspread_amp : ∀ k, (sim_spread sha256 rng message tx_secret scheme).amp k
      = nrz ((sim_encoded message scheme).getD (k / cpb) 0) * prn.amp (k % cpb) := by
    intro k
    rw [sim_spread, spread_bits, if_neg hL]
  have hrxd : ∀ m : ℕ,
      (sim_rx_demod sha256 rng noise message tx_secret chip_rate carrier_freq 0
        noise_bandwidth oversampling scheme).amp m
      = ((sim_spread sha256 rng message tx_secret scheme).amp (m / oversampling) *
          Real.cos (κ * m)) * Real.cos (κ * m) := by
    intro m
    show (sim_channel sha256 rng noise message tx_secret chip_rate carrier_freq 0
        noise_bandwidth oversampling scheme).amp m *
      carrier_of carrier_freq (chip_rate * (oversampling : ℝ)) m = _
    rw [hchannel]
    show ((sim_chip_waveform sha256 rng message tx_secret oversampling scheme).amp m *
        carrier_of carrier_freq (chip_rate * (oversampling : ℝ)) m) *
      carrier_of carrier_freq (chip_rate * (oversampling : ℝ)) m = _
    rw [hcar, sim_chip_waveform, repeat_wave_amp]
  have hbm : (sim_bit_metrics sha256 rng noise message tx_secret tx_secret chip_rate
      carrier_freq 0 noise_bandwidth oversampling scheme).amp b
      = (∑ i ∈ Finset.range cpb,
          (sim_despread sha256 rng noise message tx_secret tx_secret chip_rate carrier_freq
            0 noise_bandwidth oversampling scheme).amp (b * cpb + i)) / cpb := rfl
  have hstep1 : ∀ i ∈ Finset.range cpb,
      (sim_despread sha256 rng noise message tx_secret tx_secret chip_rate carrier_freq 0
        noise_bandwidth oversampling scheme).amp (b * cpb + i)
      = nrz ((sim_encoded message scheme).getD b 0) *
          ((∑ j ∈ Finset.range oversampling,
            Real.cos (κ * (((b * cpb + i) * oversampling + j : ℕ) : ℝ)) ^ 2)
              / (oversampling : ℝ)) := by
    intro i hi
    have hi' := Finset.mem_range.mp hi
    have hmod : (b * cpb + i) % cpb = i := by
      rw [mul_comm, Nat.mul_add_mod]
      exact Nat.mod_eq_of_lt hi'
    have hdivc : (b * cpb + i) / cpb = b := by
      rw [mul_comm, Nat.mul_add_div hcpb_pos, Nat.div_eq_of_lt hi', add_zero]
    show (chunk_mean (sim_rx_demod sha256 rng noise message tx_secret chip_rate carrier_freq
        0 noise_bandwidth oversampling scheme) oversampling).amp (b * cpb + i) *
      prn.amp ((b * cpb + i) % cpb) = _
    rw [hmod, chunk_mean_amp]
    have hinner : ∀ j ∈ Finset.range oversampling,
        (sim_rx_demod sha256 rng noise message tx_secret chip_rate carrier_freq 0
          noise_bandwidth oversampling scheme).amp ((b * cpb + i) * oversampling + j)
        = nrz ((sim_encoded message scheme).getD b 0) * prn.amp i *
            Real.cos (κ * (((b * cpb + i) * oversampling + j : ℕ) : ℝ)) ^ 2 := by
      intro j hj
      have hj' := Finset.mem_range.mp hj
      have hdivo : ((b * cpb + i) * oversampling + j) / oversampling = b * cpb + i := by
        rw [mul_comm, Nat.mul_add_div hos_pos, Nat.div_eq_of_lt hj', add_zero]
      rw [hrxd, hdivo, hspread_amp, hdivc, hmod]
      ring
    rw [Finset.sum_congr rfl hinner, ← Finset.mul_sum]
    calc nrz ((sim_encoded message scheme).getD b 0) * prn.amp i *
          (∑ j ∈ Finset.range oversampling,
            Real.cos (κ * (((b * cpb + i) * oversampling + j : ℕ) : ℝ)) ^ 2)
            / (oversampling : ℝ) * prn.amp i
        = nrz ((sim_encoded message scheme).getD b 0) *
            ((∑ j ∈ Finset.range oversampling,
              Real.cos (κ * (((b * cpb + i) * oversampling + j : ℕ) : ℝ)) ^ 2)
                / (oversampling : ℝ)) * (prn.amp i * prn.amp i) := by ring
      _ = _ := by
        rw [hprn_def, generate_prn_amp_sq, mul_one]
  rw [hbm, Finset.sum_congr rfl hstep1, ← Finset.mul_sum]
  have hTsum : ∑ i ∈ Finset.range cpb,
      ((∑ j ∈ Finset.range oversampling,
        Real.cos (κ * (((b * cpb + i) * oversampling + j : ℕ) : ℝ)) ^ 2)
          / (oversampling : ℝ))
      = (∑ n ∈ Finset.range (cpb * oversampling),
          Real.cos (κ * ((b * cpb * oversampling + n : ℕ) : ℝ)) ^ 2)
        / (oversampling : ℝ) := by
    rw [← Finset.sum_div]
    congr 1
    calc ∑ i ∈ Finset.range cpb, ∑ j ∈ Finset.range oversampling,
          Real.cos (κ * (((b * cpb + i) * oversampling + j : ℕ) : ℝ)) ^ 2
        = ∑ i ∈ Finset.range cpb, ∑ j ∈ Finset.range oversampling,
            Real.cos (κ * ((b * cpb * oversampling + (i * oversampling + j) : ℕ) : ℝ)) ^ 2 := by
          apply Finset.sum_congr rfl
          intro i _
          apply Finset.sum_congr rfl
          intro j _
          have hidx : (b * cpb + i) * oversampling + j
              = b * cpb * oversampling + (i * oversampling + j) := by ring
          rw [hidx]
      _ = ∑ n ∈ Finset.range (cpb * oversampling),
            Real.cos (κ * ((b * cpb * oversampling + n : ℕ) : ℝ)) ^ 2 :=
          sum_range_mul_sum cpb oversampling
            (fun n => Real.cos (κ * ((b * cpb * oversampling + n : ℕ) : ℝ)) ^ 2)
  rw [hTsum]
  ring

theorem nrz_zero : nrz 0 = -1 := by norm_num [nrz]

theorem nrz_one : nrz 1 = 1 := by norm_num [nrz]

theorem sim_recovered_bits_eq (sha256 : List ℕ → List ℕ) (rng : ℕ → ℕ → Bool)
    (noise : ℕ → ℝ) (message : List ℕ) (tx_secret : String)
    (chip_rate carrier_freq noise_bandwidth : ℝ) (oversampling : ℕ)
    (scheme : CodingScheme) (hos : oversampling ≠ 0)
    (hL : ¬(sim_encoded message scheme).length = 0) :
    sim_recovered_bits sha256 rng noise message tx_secret tx_secret chip_rate carrier_freq
      0 noise_bandwidth oversampling scheme = sim_encoded message scheme := by
  have hcpb_pos := chips_per_bit_of_pos tx_secret
  have hos_pos : 0 < oversampling := Nat.pos_of_ne_zero hos
  have h2 : 2 ≤ chips_per_bit_of tx_secret * oversampling := by
    have h8 := chips_per_bit_of_ge_eight tx_secret
    calc 2 ≤ 8 * 1 := by norm_num
      _ ≤ chips_per_bit_of tx_secret * oversampling :=
          Nat.mul_le_mul h8 hos_pos
  have hSpos : ∀ b : ℕ,
      0 < (∑ n ∈ Finset.range (chips_per_bit_of tx_secret * oversampling),
            Real.cos (2 * Real.pi * carrier_freq / (chip_rate * (oversampling : ℝ)) *
              ((b * chips_per_bit_of tx_secret * oversampling + n : ℕ) : ℝ)) ^ 2)
          / (oversampling : ℝ) / (chips_per_bit_of tx_secret : ℝ) := by
    intro b
    apply div_pos
    apply div_pos
    · exact sum_cos_sq_pos _ (b * chips_per_bit_of tx_secret * oversampling)
        (chips_per_bit_of tx_secret * oversampling) h2
    · exact_mod_cast hos_pos
    · exact_mod_cast hcpb_pos
  have hbool : ∀ b : ℕ, (sim_encoded message scheme).getD b 0 ≤ 1 := by
    apply getD_of_boolean
    rw [sim_encoded]
    exact encode_bits_boolean _ (text_to_bits_boolean message) scheme
  rw [sim_recovered_bits, sim_bit_metrics_len sha256 rng noise message tx_secret tx_secret
    chip_rate carrier_freq 0 noise_bandwidth oversampling scheme hos, if_neg hL]
  calc (List.range (sim_encoded message scheme).length).map (fun b =>
        if 0 < (sim_bit_metrics sha256 rng noise message tx_secret tx_secret chip_rate
          carrier_freq 0 noise_bandwidth oversampling scheme).amp b then 1 else 0)
      = (List.range (sim_encoded message scheme).length).map
          (fun b => (sim_encoded message scheme).getD b 0) := by
        apply List.map_congr_left
        intro b _
        rw [sim_bit_metrics_amp sha256 rng noise message tx_secret chip_rate carrier_freq
          noise_bandwidth oversampling scheme hos hL b]
        have hb01 : (sim_encoded message scheme).getD b 0 = 0
            ∨ (sim_encoded message scheme).getD b 0 = 1 := by
          have := hbool b
          omega
        rcases hb01 with hb | hb <;> rw [hb]
        · rw [nrz_zero, if_neg]
          rw [not_lt]
          have := hSpos b
          nlinarith
        · rw [nrz_one, one_mul, if_pos (hSpos b)]
      _ = sim_encoded message scheme := map_range_getD _

/-- C1: with equal transmit and receive secrets and zero noise power, the
simulation succeeds and decodes the original message exactly, with
`mismatch = false`, for every coding scheme and every valid input. -/
theorem claim_C1_zero_noise_exact_recovery (sha256 : List ℕ → List ℕ)
    (rng : ℕ → ℕ → Bool) (noise : ℕ → ℝ) (sim_id : String) (cache_size : ℕ)
    (cache : Cache) (message : List ℕ) (tx_secret rx_secret : String)
    (chip_rate carrier_freq noise_bandwidth : ℝ) (oversampling : ℕ)
    (scheme : CodingScheme)
    (hmsg : ∀ b ∈ message, b < 256)
    (htx : 4 ≤ tx_secret.length) (hrx : rx_secret = tx_secret)
    (hcr : 0 < chip_rate) (hcf : 0 < carrier_freq)
    (hos1 : 1 ≤ oversampling) (hos2 : oversampling ≤ 64) :
    ∃ r : SimulationResult,
      (simulate sha256 rng noise sim_id cache_size cache message tx_secret rx_secret
        chip_rate carrier_freq 0 noise_bandwidth oversampling scheme).1 = Except.ok r
      ∧ r.decoded_message = message ∧ r.mismatch = false := by
  rw [hrx]
  have hos : oversampling ≠ 0 := by omega
  have hdecoded : bits_to_text (sim_decoded_bits sha256 rng noise message tx_secret
      tx_secret chip_rate carrier_freq 0 noise_bandwidth oversampling scheme)
      message.length = message := by
    by_cases hp : (text_to_bits message).length = 0
    · have hmsgnil : message = [] := by
        have := text_to_bits_length message
        have hml : message.length = 0 := by omega
        exact List.eq_nil_of_length_eq_zero hml
      subst hmsgnil
      have hdec : sim_decoded_bits sha256 rng noise [] tx_secret tx_secret chip_rate
          carrier_freq 0 noise_bandwidth oversampling scheme = [] := by
        apply List.eq_nil_of_length_eq_zero
        rw [sim_decoded_bits_length sha256 rng noise [] tx_secret tx_secret chip_rate
          carrier_freq 0 noise_bandwidth oversampling scheme hos]
        rfl
      rw [hdec]
      rfl
    · have hL : ¬(sim_encoded message scheme).length = 0 := by
        rw [sim_encoded]
        intro h0
        exact hp ((encode_bits_length_zero_iff _ _).mp h0)
      have hrec := sim_recovered_bits_eq sha256 rng noise message tx_secret chip_rate
        carrier_freq noise_bandwidth oversampling scheme hos hL
      rw [sim_decoded_bits, hrec]
      have hRT : decode_bits (sim_encoded message scheme) scheme (sim_meta message scheme)
          = text_to_bits message := by
        rw [sim_encoded, sim_meta]
        cases scheme
        · exact encode_bits_nrz_roundtrip _
        · exact encode_bits_manchester_roundtrip _ (text_to_bits_boolean message)
        · exact encode_bits_rep3_roundtrip _ (text_to_bits_boolean message)
        · exact encode_bits_hamming_roundtrip _ (text_to_bits_boolean message)
      rw [hRT]
      exact bits_to_text_text_to_bits message hmsg
  refine ⟨sim_result sha256 rng noise sim_id message tx_secret tx_secret chip_rate
    carrier_freq 0 noise_bandwidth oversampling scheme, ?_, ?_, ?_⟩
  · rw [simulate, simulate_run_eq sha256 rng noise sim_id message tx_secret tx_secret
      chip_rate carrier_freq 0 noise_bandwidth oversampling scheme hos]
  · exact hdecoded
  · show (bits_to_text (sim_decoded_bits sha256 rng noise message tx_secret tx_secret
      chip_rate carrier_freq 0 noise_bandwidth oversampling scheme) message.length
        != message) = false
    rw [hdecoded]
    exact bne_self_eq_false message

/-- Witness for C1 at a concrete input: message bytes "HI", secret "alpha",
oversampling 4, NRZ. -/
theorem claim_C1_witness :
    (∀ b ∈ [72, 73], b < 256) ∧ 4 ≤ ("alpha" : String).length ∧
      ∃ r : SimulationResult,
        (simulate (fun _ => []) (fun _ _ => true) (fun _ => 0) "id" 16 []
          [72, 73] "alpha" "alpha" 1 1 0 1 4 CodingScheme.nrz).1 = Except.ok r
        ∧ r.decoded_message = [72, 73] ∧ r.mismatch = false :=
  ⟨by decide, by decide,
   claim_C1_zero_noise_exact_recovery (fun _ => []) (fun _ _ => true) (fun _ => 0) "id" 16
     [] [72, 73] "alpha" "alpha" 1 1 1 4 CodingScheme.nrz (by decide) (by decide) rfl
     one_pos one_pos (by decide) (by decide)⟩

/-- C2: decoding the encoder's output with the encoder's metadata returns the
original bit sequence exactly, for every scheme; the metadata always carries
the payload bit count, Repeat3 adds the repeat factor 3, and Hamming(7,4)
adds the zero-padding length. -/
theorem claim_C2_encode_decode_roundtrip (bits : List ℕ) (h : ∀ b ∈ bits, b ≤ 1)
    (scheme : CodingScheme) :
    decode_bits (encode_bits bits scheme).1 scheme (encode_bits bits scheme).2 = bits
    ∧ (encode_bits bits scheme).2.payload_bits = some bits.length
    ∧ (scheme = CodingScheme.rep3 → (encode_bits bits scheme).2.repeat_factor = some 3)
    ∧ (scheme = CodingScheme.hamming74 →
        (encode_bits bits scheme).2.padding = some ((4 - bits.length % 4) % 4)) := by
  refine ⟨?_, encode_bits_payload_meta bits scheme, ?_, ?_⟩
  · cases scheme
    · exact encode_bits_nrz_roundtrip bits
    · exact encode_bits_manchester_roundtrip bits h
    · exact encode_bits_rep3_roundtrip bits h
    · exact encode_bits_hamming_roundtrip bits h
  · intro hs
    subst hs
    rfl
  · intro hs
    subst hs
    rfl

/-- Witness for C2 on the bit sequence `[1, 0, 1]` with Hamming(7,4). -/
theorem claim_C2_witness :
    (∀ b ∈ [1, 0, 1], b ≤ 1) ∧
      decode_bits (encode_bits [1, 0, 1] CodingScheme.hamming74).1 CodingScheme.hamming74
        (encode_bits [1, 0, 1] CodingScheme.hamming74).2 = [1, 0, 1] ∧
      (encode_bits [1, 0, 1] CodingScheme.hamming74).2.payload_bits = some 3 :=
  ⟨by decide,
   (claim_C2_encode_decode_roundtrip [1, 0, 1] (by decide) CodingScheme.hamming74).1,
   (claim_C2_encode_decode_roundtrip [1, 0, 1] (by decide) CodingScheme.hamming74).2.1⟩

/-- C3: flipping exactly one bit of any Hamming(7,4) codeword
`(p1, p2, d1, p3, d2, d3, d4)` makes the syndrome nonzero (it equals
position + 1, while the intact codeword has syndrome 0), the corrector
flips the bit back at 0-indexed position syndrome − 1, and decoding
recovers the original 4-bit block. -/
theorem claim_C3_hamming_single_error_correction (d1 d2 d3 d4 p : ℕ)
    (h1 : d1 ≤ 1) (h2 : d2 ≤ 1) (h3 : d3 ≤ 1) (h4 : d4 ≤ 1) (hp : p < 7) :
    hamming_syndrome (hamming_encode_block d1 d2 d3 d4) = 0
    ∧ hamming_syndrome ((hamming_encode_block d1 d2 d3 d4).set p
        ((hamming_encode_block d1 d2 d3 d4).getD p 0 ^^^ 1)) = p + 1
    ∧ hamming_correct ((hamming_encode_block d1 d2 d3 d4).set p
        ((hamming_encode_block d1 d2 d3 d4).getD p 0 ^^^ 1))
        = hamming_encode_block d1 d2 d3 d4
    ∧ hamming_data_bits (hamming_correct ((hamming_encode_block d1 d2 d3 d4).set p
        ((hamming_encode_block d1 d2 d3 d4).getD p 0 ^^^ 1))) = [d1, d2, d3, d4] := by
  interval_cases p <;> interval_cases d1 <;> interval_cases d2 <;> interval_cases d3 <;>
    interval_cases d4 <;> exact ⟨by decide, by decide, by decide, by decide⟩

/-- Witness for C3: data block `(1, 0, 1, 1)` with the last codeword bit
flipped. -/
theorem claim_C3_witness :
    hamming_syndrome ((hamming_encode_block 1 0 1 1).set 6
        ((hamming_encode_block 1 0 1 1).getD 6 0 ^^^ 1)) = 7
    ∧ hamming_data_bits (hamming_correct ((hamming_encode_block 1 0 1 1).set 6
        ((hamming_encode_block 1 0 1 1).getD 6 0 ^^^ 1))) = [1, 0, 1, 1] :=
  ⟨(claim_C3_hamming_single_error_correction 1 0 1 1 6 (by decide) (by decide) (by decide)
      (by decide) (by decide)).2.1,
   (claim_C3_hamming_single_error_correction 1 0 1 1 6 (by decide) (by decide) (by decide)
      (by decide) (by decide)).2.2.2⟩

/-- C9 (implicit frame effect): the Hamming(7,4) decoder corrects errors in
place through a view of the caller's array — whenever some complete 7-bit
block has nonzero syndrome the array passed in is mutated — while the NRZ,
Manchester and Repeat3 branches leave the input array unchanged. -/
theorem claim_C9_decode_mutates_only_hamming (bits : List ℕ) (h : ∀ b ∈ bits, b ≤ 1)
    (i : ℕ) (hi : i < bits.length / 7)
    (hsyn : hamming_syndrome (hamming_block bits i) ≠ 0) :
    decode_bits_post bits CodingScheme.hamming74 ≠ bits
    ∧ ∀ s : CodingScheme, s ≠ CodingScheme.hamming74 → decode_bits_post bits s = bits := by
  constructor
  · set c := hamming_block bits i with hc_def
    have hcbool : ∀ x ∈ c, x ≤ 1 := hamming_block_boolean bits h i
    have hsyn7 : hamming_syndrome c ≤ 7 := hamming_syndrome_le_seven c hcbool
    set pos := hamming_syndrome c - 1 with hpos_def
    have hpos7 : pos < 7 := by omega
    set n := 7 * i + pos with hn_def
    have hn_lt : n < 7 * (bits.length / 7) := by
      have : 7 * i + 7 ≤ 7 * (bits.length / 7) := by omega
      omega
    have hn_bits : n < bits.length := by
      have := Nat.div_mul_le_self bits.length 7
      omega
    have huniform : ∀ j : ℕ, (hamming_correct (hamming_block bits j)).length = 7 := by
      intro j
      rw [hamming_correct_length, hamming_block_length]
    intro heq
    have hgetD := congrArg (fun l => l.getD n 0) heq
    simp only at hgetD
    have hflat : (((List.range (bits.length / 7)).flatMap fun j =>
        hamming_correct (hamming_block bits j)) ++
          bits.drop (7 * (bits.length / 7))).getD n 0
        = (hamming_correct c).getD pos 0 := by
      rw [List.getD_append _ _ _ n (by
        rw [length_flatMap_range_uniform 7 _ _ huniform]
        omega)]
      rw [hn_def, flatMap_uniform_getD _ 7 huniform (List.range (bits.length / 7)) i pos
        (by simpa using hi) hpos7]
      congr 2
      rw [getD_eq_getElem _ i (by simpa using hi), List.getElem_range]
    have hcorr : (hamming_correct c).getD pos 0 = c.getD pos 0 ^^^ 1 := by
      rw [hamming_correct, if_neg hsyn, ← hpos_def]
      rw [getD_eq_getElem _ pos (by rw [List.length_set, hamming_block_length]; exact hpos7)]
      rw [List.getElem_set_self]
    have hcpos : c.getD pos 0 = bits.getD n 0 := by
      rw [hc_def, hamming_block_getD bits i pos hpos7, hn_def]
    rw [decode_bits_post] at hgetD
    rw [hflat, hcorr, hcpos] at hgetD
    exact xor_one_ne _ hgetD
  · intro s hs
    cases s
    · rfl
    · rfl
    · rfl
    · exact absurd rfl hs

/-- Witness for C9: the single block `[1,0,0,0,0,0,0]` has syndrome 1, so the
Hamming decode pass rewrites the caller's array; the other schemes leave it
unchanged. -/
theorem claim_C9_witness :
    decode_bits_post [1, 0, 0, 0, 0, 0, 0] CodingScheme.hamming74 ≠ [1, 0, 0, 0, 0, 0, 0]
    ∧ decode_bits_post [1, 0, 0, 0, 0, 0, 0] CodingScheme.nrz = [1, 0, 0, 0, 0, 0, 0] :=
  ⟨(claim_C9_decode_mutates_only_hamming [1, 0, 0, 0, 0, 0, 0] (by decide) 0 (by decide)
      (by decide)).1,
   (claim_C9_decode_mutates_only_hamming [1, 0, 0, 0, 0, 0, 0] (by decide) 0 (by decide)
      (by decide)).2 CodingScheme.nrz (by decide)⟩

/-- C4: chip-sequence generation is deterministic — it is a pure function of
(secret, chipsPerBit), so two calls agree element-wise — its elements all lie
in {-1, +1}, and its seed is the big-endian unsigned 64-bit value of the
first 8 bytes of SHA-256 of the secret's UTF-8 encoding (with the digest
abstracted as the `sha256` parameter). -/
theorem claim_C4_prn_deterministic (sha256 : List ℕ → List ℕ) (rng : ℕ → ℕ → Bool)
    (secret : String) (chips_per_bit : ℕ) :
    (∀ i, (generate_prn sha256 rng secret chips_per_bit).amp i
        = (generate_prn sha256 rng secret chips_per_bit).amp i)
    ∧ (generate_prn sha256 rng secret chips_per_bit).len = chips_per_bit
    ∧ (∀ i, (generate_prn sha256 rng secret chips_per_bit).amp i = 1
        ∨ (generate_prn sha256 rng secret chips_per_bit).amp i = -1)
    ∧ generate_seed sha256 secret
        = ((sha256 (secret.toUTF8.data.toList.map fun b => b.toNat)).take 8).foldl
            (fun acc b => 256 * acc + b) 0 := by
  refine ⟨fun i => rfl, rfl, ?_, rfl⟩
  intro i
  rw [generate_prn]
  by_cases hr : rng (generate_seed sha256 secret) i
  · left
    simp [hr]
  · right
    simp [hr]

/-- C5: with nodup keys, (a) re-storing a present id removes it and reinserts
it at the end without evicting while within capacity, and (b) storing a
fresh id into a cache already at capacity evicts exactly the
earliest-inserted entry, after which `get_stage` on the evicted id fails
with the NotFound error. -/
theorem claim_C5_cache_eviction (cap : ℕ) (cache : Cache) (simulation_id : String)
    (stages : StageMap) (stage : StageName) (k0 : String) (v0 : StageMap) (rest : Cache)
    (hnodup : (cache.map Prod.fst).Nodup) :
    (simulation_id ∈ cache.map Prod.fst → cache.length ≤ cap →
      store_cache cap cache simulation_id stages
        = cache.eraseP (fun e => e.1 == simulation_id) ++ [(simulation_id, stages)])
    ∧ (cache = (k0, v0) :: rest → cache.length = cap →
        simulation_id ∉ cache.map Prod.fst →
        store_cache cap cache simulation_id stages = rest ++ [(simulation_id, stages)]
        ∧ get_stage (store_cache cap cache simulation_id stages) k0 stage
            = Except.error ("Unknown simulation_id/stage combination: " ++ k0 ++ "/"
                ++ stage.label)) := by
  constructor
  · intro hmem hle
    obtain ⟨e, he, hek⟩ := List.mem_map.mp hmem
    have herase : (cache.eraseP fun x => x.1 == simulation_id).length
        = cache.length - 1 :=
      List.length_eraseP_of_mem he (beq_iff_eq.mpr hek)
    have hpos : 1 ≤ cache.length := List.length_pos.mpr (List.ne_nil_of_mem he)
    have hlt : ¬ cap < ((cache.eraseP fun e => e.1 == simulation_id)
        ++ [(simulation_id, stages)]).length := by
      rw [List.length_append, herase, List.length_singleton]
      omega
    rw [store_cache, if_pos (any_key_eq_true cache simulation_id hmem), if_neg hlt]
  · intro hcons hlen hnot
    have hany : (cache.any fun e => e.1 == simulation_id) = false :=
      any_key_eq_false cache simulation_id hnot
    have hstore : store_cache cap cache simulation_id stages
        = rest ++ [(simulation_id, stages)] := by
      have hgt : cap < (cache ++ [(simulation_id, stages)]).length := by
        rw [List.length_append, List.length_singleton]
        omega
      rw [store_cache, hany]
      simp only [Bool.false_eq_true, if_false]
      rw [if_pos hgt, hcons, List.cons_append, List.drop_succ_cons, List.drop_zero]
    refine ⟨hstore, ?_⟩
    have hk0id : k0 ≠ simulation_id := by
      intro hk
      apply hnot
      rw [← hk, hcons]
      simp
    have hk0rest : k0 ∉ rest.map Prod.fst := by
      rw [hcons] at hnodup
      simp only [List.map_cons, List.nodup_cons] at hnodup
      exact hnodup.1
    have hlookup : List.lookup k0 (rest ++ [(simulation_id, stages)]) = none := by
      apply lookup_eq_none_of_not_mem
      rw [List.map_append]
      intro hk
      rcases List.mem_append.mp hk with hk | hk
      · exact hk0rest hk
      · simp at hk
        exact hk0id hk
    rw [hstore, get_stage, hlookup]
    rfl

/-- Witness for C5: capacity 1, cache holding only id "a", storing fresh id
"b" evicts "a" and a subsequent `get_stage "a"` fails. -/
theorem claim_C5_witness :
    store_cache 1 [("a", ([] : StageMap))] "b" [] = [("b", ([] : StageMap))]
    ∧ get_stage (store_cache 1 [("a", ([] : StageMap))] "b" []) "a" StageName.source
        = Except.error "Unknown simulation_id/stage combination: a/source" :=
  ⟨((claim_C5_cache_eviction 1 [("a", [])] "b" [] StageName.source "a" [] []
      (by decide)).2 rfl rfl (by decide)).1,
   ((claim_C5_cache_eviction 1 [("a", [])] "b" [] StageName.source "a" [] []
      (by decide)).2 rfl rfl (by decide)).2⟩

/-- C6: a simulation run is atomic with respect to the cache — on an error
outcome the cache is returned unchanged, and on success the cache mutation
is exactly one `store` of the result's stage map (which contains all six
stages) under the fresh id. -/
theorem claim_C6_simulate_atomic (sha256 : List ℕ → List ℕ) (rng : ℕ → ℕ → Bool)
    (noise : ℕ → ℝ) (sim_id : String) (cache_size : ℕ) (cache : Cache)
    (message : List ℕ) (tx_secret rx_secret : String)
    (chip_rate carrier_freq noise_power noise_bandwidth : ℝ) (oversampling : ℕ)
    (scheme : CodingScheme) :
    (∀ e, (simulate sha256 rng noise sim_id cache_size cache message tx_secret rx_secret
        chip_rate carrier_freq noise_power noise_bandwidth oversampling scheme).1
          = Except.error e →
      (simulate sha256 rng noise sim_id cache_size cache message tx_secret rx_secret
        chip_rate carrier_freq noise_power noise_bandwidth oversampling scheme).2 = cache)
    ∧ ∀ r, (simulate sha256 rng noise sim_id cache_size cache message tx_secret rx_secret
        chip_rate carrier_freq noise_power noise_bandwidth oversampling scheme).1
          = Except.ok r →
        (simulate sha256 rng noise sim_id cache_size cache message tx_secret rx_secret
          chip_rate carrier_freq noise_power noise_bandwidth oversampling scheme).2
          = store_cache cache_size cache sim_id r.stages
        ∧ ∀ s : StageName, (List.lookup s r.stages).isSome = true := by
  constructor
  · intro e he
    rw [simulate] at he ⊢
    cases hrun : simulate_run sha256 rng noise sim_id message tx_secret rx_secret chip_rate
        carrier_freq noise_power noise_bandwidth oversampling scheme with
    | ok r =>
      rw [hrun] at he
      exact absurd he (by simp)
    | error e' => rfl
  · intro r hr
    rw [simulate] at hr ⊢
    cases hrun : simulate_run sha256 rng noise sim_id message tx_secret rx_secret chip_rate
        carrier_freq noise_power noise_bandwidth oversampling scheme with
    | error e' =>
      rw [hrun] at hr
      exact absurd hr (by simp)
    | ok r' =>
      rw [hrun] at hr
      have hrr : r' = r := by
        simpa using hr
      subst hrr
      refine ⟨rfl, ?_⟩
      by_cases hos : oversampling = 0
      · subst hos
        rw [simulate_run] at hrun
        simp [chunk_mean_e] at hrun
      · rw [simulate_run_eq sha256 rng noise sim_id message tx_secret rx_secret chip_rate
          carrier_freq noise_power noise_bandwidth oversampling scheme hos] at hrun
        have hr' : r' = sim_result sha256 rng noise sim_id message tx_secret rx_secret
            chip_rate carrier_freq noise_power noise_bandwidth oversampling scheme := by
          have := Except.ok.inj hrun
          exact this.symm
        rw [hr', sim_result]
        intro s
        cases s <;> rfl

/-- Witness for C6: with oversampling 0 the run fails and the cache (here one
entry under id "a") is untouched; with oversampling 1 it succeeds and stores
the six stages. -/
theorem claim_C6_witness :
    (simulate (fun _ => []) (fun _ _ => true) (fun _ => 0) "id" 16
        [("a", ([] : StageMap))] [1] "abcd" "abcd" 1 1 0 1 0 CodingScheme.nrz).2
      = [("a", ([] : StageMap))] :=
  (claim_C6_simulate_atomic (fun _ => []) (fun _ _ => true) (fun _ => 0) "id" 16
    [("a", [])] [1] "abcd" "abcd" 1 1 0 1 0 CodingScheme.nrz).1
    "chunk_size must be > 0" rfl

theorem sim_decoder_waveform_len (sha256 : List ℕ → List ℕ) (rng : ℕ → ℕ → Bool)
    (noise : ℕ → ℝ) (message : List ℕ) (tx_secret rx_secret : String)
    (chip_rate carrier_freq noise_power noise_bandwidth : ℝ) (oversampling : ℕ)
    (scheme : CodingScheme) :
    (sim_decoder_waveform sha256 rng noise message tx_secret rx_secret chip_rate
      carrier_freq noise_power noise_bandwidth oversampling scheme).len
      = (if (sim_decoded_bits sha256 rng noise message tx_secret rx_secret chip_rate
            carrier_freq noise_power noise_bandwidth oversampling scheme).length ≠ 0
         then (sim_decoded_bits sha256 rng noise message tx_secret rx_secret chip_rate
            carrier_freq noise_power noise_bandwidth oversampling scheme).length
         else (sim_recovered_bits sha256 rng noise message tx_secret rx_secret chip_rate
            carrier_freq noise_power noise_bandwidth oversampling scheme).length)
        * (chips_per_bit_of tx_secret * oversampling) := by
  rw [sim_decoder_waveform, repeat_wave_len]
  congr 1
  by_cases h : (sim_decoded_bits sha256 rng noise message tx_secret rx_secret chip_rate
      carrier_freq noise_power noise_bandwidth oversampling scheme).length ≠ 0
  · rw [if_pos h, if_pos h]
    rfl
  · rw [if_neg h, if_neg h]
    rfl

theorem simulate_run_err (sha256 : List ℕ → List ℕ) (rng : ℕ → ℕ → Bool)
    (noise : ℕ → ℝ) (sim_id : String) (message : List ℕ) (tx_secret rx_secret : String)
    (chip_rate carrier_freq noise_power noise_bandwidth : ℝ)
    (scheme : CodingScheme) :
    simulate_run sha256 rng noise sim_id message tx_secret rx_secret chip_rate carrier_freq
      noise_power noise_bandwidth 0 scheme = Except.error "chunk_size must be > 0" := by
  rw [simulate_run]
  simp [chunk_mean_e]

/-- Counterexample to C7 as stated: one simulation (message byte 65,
Manchester, secret "abcd", oversampling 1) in which the decoder stage
waveform has 128 samples, while encoded-bit-count × chips-per-bit ×
oversampling is 256, and 128 is neither that product nor 1. -/
theorem claim_C7_counterexample :
    (simulate (fun _ => []) (fun _ _ => true) (fun _ => 0) "id" 16 [] [65] "abcd" "abcd"
        1 1 0 1 1 CodingScheme.manchester).1
      = Except.ok (sim_result (fun _ => []) (fun _ _ => true) (fun _ => 0) "id" [65]
          "abcd" "abcd" 1 1 0 1 1 CodingScheme.manchester)
    ∧ (∃ snap, List.lookup StageName.decoder
        (sim_result (fun _ => []) (fun _ _ => true) (fun _ => 0) "id" [65] "abcd" "abcd"
          1 1 0 1 1 CodingScheme.manchester).stages = some snap
        ∧ snap.waveform.len = 128)
    ∧ (sim_encoded [65] CodingScheme.manchester).length
        * (chips_per_bit_of "abcd" * 1) = 256
    ∧ ¬(128 = 256) ∧ ¬(128 = 1) := by
  refine ⟨?_, ⟨_, rfl, ?_⟩, by decide, by decide, by decide⟩
  · rw [simulate, simulate_run_eq (fun _ => []) (fun _ _ => true) (fun _ => 0) "id" [65]
      "abcd" "abcd" 1 1 0 1 1 CodingScheme.manchester (by decide)]
  · rw [sim_decoder_waveform_len]
    have hdec : (sim_decoded_bits (fun _ => []) (fun _ _ => true) (fun _ => 0) [65] "abcd"
        "abcd" 1 1 0 1 1 CodingScheme.manchester).length = 8 := by
      rw [sim_decoded_bits_length (fun _ => []) (fun _ _ => true) (fun _ => 0) [65] "abcd"
        "abcd" 1 1 0 1 1 CodingScheme.manchester (by decide)]
      decide
    rw [if_pos (by rw [hdec]; decide), hdec]
    decide

/-- C7 as amended: in every successful simulation, the spreader, modulator,
channel and correlator waveforms have length
max(encoded-bit-count, 1) × chips-per-bit × oversampling (so a one-bit
placeholder of `chipsPerBit × oversampling` samples when no bits are
encoded, not a single sample), and the decoder waveform has length
max(payload-bit-count, 1) × chips-per-bit × oversampling. -/
theorem claim_C7_amended_stage_lengths (sha256 : List ℕ → List ℕ) (rng : ℕ → ℕ → Bool)
    (noise : ℕ → ℝ) (sim_id : String) (cache_size : ℕ) (cache : Cache)
    (message : List ℕ) (tx_secret rx_secret : String)
    (chip_rate carrier_freq noise_power noise_bandwidth : ℝ) (oversampling : ℕ)
    (scheme : CodingScheme) (r : SimulationResult)
    (hr : (simulate sha256 rng noise sim_id cache_size cache message tx_secret rx_secret
      chip_rate carrier_freq noise_power noise_bandwidth oversampling scheme).1
        = Except.ok r) :
    (∀ s : StageName, s ≠ StageName.source → s ≠ StageName.decoder →
      ∃ snap, List.lookup s r.stages = some snap
        ∧ snap.waveform.len
            = max (sim_encoded message scheme).length 1
              * (chips_per_bit_of tx_secret * oversampling))
    ∧ ∃ snap, List.lookup StageName.decoder r.stages = some snap
        ∧ snap.waveform.len
            = max (text_to_bits message).length 1
              * (chips_per_bit_of tx_secret * oversampling) := by
  have hos : oversampling ≠ 0 := by
    intro hos0
    subst hos0
    rw [simulate, simulate_run_err] at hr
    exact absurd hr (by simp)
  rw [simulate, simulate_run_eq sha256 rng noise sim_id message tx_secret rx_secret
    chip_rate carrier_freq noise_power noise_bandwidth oversampling scheme hos] at hr
  have hrr : r = sim_result sha256 rng noise sim_id message tx_secret rx_secret chip_rate
      carrier_freq noise_power noise_bandwidth oversampling scheme :=
    (Except.ok.inj hr).symm
  subst hrr
  have hchip : (sim_chip_waveform sha256 rng message tx_secret oversampling scheme).len
      = max (sim_encoded message scheme).length 1
          * (chips_per_bit_of tx_secret * oversampling) := by
    rw [sim_chip_waveform_len]
    by_cases hL : (sim_encoded message scheme).length = 0
    · rw [if_pos hL, hL]
      have hmax : max 0 1 = 1 := rfl
      rw [hmax, one_mul]
    · rw [if_neg hL, Nat.max_eq_left (by omega), mul_assoc]
  constructor
  · intro s hs1 hs2
    cases s
    · exact absurd rfl hs1
    · exact ⟨_, rfl, hchip⟩
    · refine ⟨_, rfl, ?_⟩
      rw [show (sim_tx_signal sha256 rng message tx_secret chip_rate carrier_freq
        oversampling scheme).len = (sim_chip_waveform sha256 rng message tx_secret
          oversampling scheme).len from rfl, hchip]
    · refine ⟨_, rfl, ?_⟩
      rw [sim_channel_len, hchip]
    · refine ⟨_, rfl, ?_⟩
      rw [sim_rx_demod_len, hchip]
    · exact absurd rfl hs2
  · refine ⟨_, rfl, ?_⟩
    rw [sim_decoder_waveform_len]
    have hdlen := sim_decoded_bits_length sha256 rng noise message tx_secret rx_secret
      chip_rate carrier_freq noise_power noise_bandwidth oversampling scheme hos
    by_cases hp0 : (text_to_bits message).length = 0
    · have hifneg : ¬((sim_decoded_bits sha256 rng noise message tx_secret rx_secret
          chip_rate carrier_freq noise_power noise_bandwidth oversampling scheme).length
            ≠ 0) := by
        rw [hdlen, hp0]
        exact fun h => h rfl
      rw [if_neg hifneg, hp0]
      have hL : (sim_encoded message scheme).length = 0 := by
        rw [sim_encoded]
        exact (encode_bits_length_zero_iff _ _).mpr hp0
      rw [sim_recovered_bits_length, sim_bit_metrics_len sha256 rng noise message tx_secret
        rx_secret chip_rate carrier_freq noise_power noise_bandwidth oversampling scheme
        hos, if_pos hL]
      have hmax : max 0 1 = 1 := rfl
      rw [hmax]
    · rw [if_pos (by rw [hdlen]; exact hp0), hdlen, Nat.max_eq_left (by omega)]

/-- Witness for the amended C7 at a concrete successful run (spreader
stage). -/
theorem claim_C7_amended_witness :
    ∃ snap, List.lookup StageName.spreader
        (sim_result (fun _ => []) (fun _ _ => true) (fun _ => 0) "id" [65] "abcd" "abcd"
          1 1 0 1 1 CodingScheme.manchester).stages = some snap
      ∧ snap.waveform.len = max (sim_encoded [65] CodingScheme.manchester).length 1
          * (chips_per_bit_of "abcd" * 1) :=
  (claim_C7_amended_stage_lengths (fun _ => []) (fun _ _ => true) (fun _ => 0) "id" 16 []
    [65] "abcd" "abcd" 1 1 0 1 1 CodingScheme.manchester
    (sim_result (fun _ => []) (fun _ _ => true) (fun _ => 0) "id" [65] "abcd" "abcd"
      1 1 0 1 1 CodingScheme.manchester)
    (by rw [simulate, simulate_run_eq (fun _ => []) (fun _ _ => true) (fun _ => 0) "id"
      [65] "abcd" "abcd" 1 1 0 1 1 CodingScheme.manchester (by decide)])).1
    StageName.spreader (by decide) (by decide)

/-- C8: every successful simulation returns a decoded byte string of exactly
the expected byte count (the byte length of the original message), and
`bits_to_text` of an empty bit array is the empty string. -/
theorem claim_C8_decoded_length (sha256 : List ℕ → List ℕ) (rng : ℕ → ℕ → Bool)
    (noise : ℕ → ℝ) (sim_id : String) (cache_size : ℕ) (cache : Cache)
    (message : List ℕ) (tx_secret rx_secret : String)
    (chip_rate carrier_freq noise_power noise_bandwidth : ℝ) (oversampling : ℕ)
    (scheme : CodingScheme) (r : SimulationResult)
    (hr : (simulate sha256 rng noise sim_id cache_size cache message tx_secret rx_secret
      chip_rate carrier_freq noise_power noise_bandwidth oversampling scheme).1
        = Except.ok r) :
    r.decoded_message.length = message.length
    ∧ ∀ expected_bytes : ℕ, bits_to_text [] expected_bytes = [] := by
  have hos : oversampling ≠ 0 := by
    intro hos0
    subst hos0
    rw [simulate, simulate_run_err] at hr
    exact absurd hr (by simp)
  rw [simulate, simulate_run_eq sha256 rng noise sim_id message tx_secret rx_secret
    chip_rate carrier_freq noise_power noise_bandwidth oversampling scheme hos] at hr
  have hrr : r = sim_result sha256 rng noise sim_id message tx_secret rx_secret chip_rate
      carrier_freq noise_power noise_bandwidth oversampling scheme :=
    (Except.ok.inj hr).symm
  subst hrr
  refine ⟨?_, fun expected_bytes => rfl⟩
  show (bits_to_text (sim_decoded_bits sha256 rng noise message tx_secret rx_secret
    chip_rate carrier_freq noise_power noise_bandwidth oversampling scheme)
      message.length).length = message.length
  apply bits_to_text_length
  rw [sim_decoded_bits_length sha256 rng noise message tx_secret rx_secret chip_rate
    carrier_freq noise_power noise_bandwidth oversampling scheme hos]
  exact text_to_bits_length message

/-- Witness for C8 at a concrete successful run. -/
theorem claim_C8_witness :
    (sim_result (fun _ => []) (fun _ _ => true) (fun _ => 0) "id" [65] "abcd" "abcd"
      1 1 0 1 1 CodingScheme.manchester).decoded_message.length = 1 :=
  (claim_C8_decoded_length (fun _ => []) (fun _ _ => true) (fun _ => 0) "id" 16 [] [65]
    "abcd" "abcd" 1 1 0 1 1 CodingScheme.manchester
    (sim_result (fun _ => []) (fun _ _ => true) (fun _ => 0) "id" [65] "abcd" "abcd"
      1 1 0 1 1 CodingScheme.manchester)
    (by rw [simulate, simulate_run_eq (fun _ => []) (fun _ _ => true) (fun _ => 0) "id"
      [65] "abcd" "abcd" 1 1 0 1 1 CodingScheme.manchester (by decide)])).1

/-- C10 (implicit): chips-per-bit is `max(8, 4·len(tx_secret))`, derived from
the transmit secret alone; the receive secret never influences whether the
run succeeds, any stage waveform length, or the sample rate. -/
theorem claim_C10_rx_secret_shape_independent (sha256 : List ℕ → List ℕ)
    (rng : ℕ → ℕ → Bool) (noise : ℕ → ℝ) (sim_id : String) (cache_size : ℕ)
    (cache : Cache) (message : List ℕ) (tx_secret rx_secret1 rx_secret2 : String)
    (chip_rate carrier_freq noise_power noise_bandwidth : ℝ) (oversampling : ℕ)
    (scheme : CodingScheme) :
    chips_per_bit_of tx_secret = max 8 (tx_secret.length * 4)
    ∧ ((simulate sha256 rng noise sim_id cache_size cache message tx_secret rx_secret1
          chip_rate carrier_freq noise_power noise_bandwidth oversampling scheme).1.isOk
        = (simulate sha256 rng noise sim_id cache_size cache message tx_secret rx_secret2
            chip_rate carrier_freq noise_power noise_bandwidth oversampling
            scheme).1.isOk)
    ∧ ∀ r1 r2,
        (simulate sha256 rng noise sim_id cache_size cache message tx_secret rx_secret1
          chip_rate carrier_freq noise_power noise_bandwidth oversampling scheme).1
            = Except.ok r1 →
        (simulate sha256 rng noise sim_id cache_size cache message tx_secret rx_secret2
          chip_rate carrier_freq noise_power noise_bandwidth oversampling scheme).1
            = Except.ok r2 →
        ∀ s : StageName,
          (List.lookup s r1.stages).map (fun snap => (snap.waveform.len, snap.sample_rate))
            = (List.lookup s r2.stages).map
                (fun snap => (snap.waveform.len, snap.sample_rate)) := by
  refine ⟨rfl, ?_, ?_⟩
  · by_cases hos : oversampling = 0
    · subst hos
      rw [simulate, simulate_run_err, simulate, simulate_run_err]
    · rw [simulate, simulate_run_eq sha256 rng noise sim_id message tx_secret rx_secret1
        chip_rate carrier_freq noise_power noise_bandwidth oversampling scheme hos,
        simulate, simulate_run_eq sha256 rng noise sim_id message tx_secret rx_secret2
        chip_rate carrier_freq noise_power noise_bandwidth oversampling scheme hos]
      rfl
  · intro r1 r2 hr1 hr2
    have hos : oversampling ≠ 0 := by
      intro hos0
      subst hos0
      rw [simulate, simulate_run_err] at hr1
      exact absurd hr1 (by simp)
    rw [simulate, simulate_run_eq sha256 rng noise sim_id message tx_secret rx_secret1
      chip_rate carrier_freq noise_power noise_bandwidth oversampling scheme hos] at hr1
    rw [simulate, simulate_run_eq sha256 rng noise sim_id message tx_secret rx_secret2
      chip_rate carrier_freq noise_power noise_bandwidth oversampling scheme hos] at hr2
    have hrr1 : r1 = sim_result sha256 rng noise sim_id message tx_secret rx_secret1
        chip_rate carrier_freq noise_power noise_bandwidth oversampling scheme :=
      (Except.ok.inj hr1).symm
    have hrr2 : r2 = sim_result sha256 rng noise sim_id message tx_secret rx_secret2
        chip_rate carrier_freq noise_power noise_bandwidth oversampling scheme :=
      (Except.ok.inj hr2).symm
    subst hrr1
    subst hrr2
    have hdeclen : (sim_decoder_waveform sha256 rng noise message tx_secret rx_secret1
        chip_rate carrier_freq noise_power noise_bandwidth oversampling scheme).len
        = (sim_decoder_waveform sha256 rng noise message tx_secret rx_secret2 chip_rate
            carrier_freq noise_power noise_bandwidth oversampling scheme).len := by
      rw [sim_decoder_waveform_len, sim_decoder_waveform_len]
      rw [sim_decoded_bits_length sha256 rng noise message tx_secret rx_secret1 chip_rate
        carrier_freq noise_power noise_bandwidth oversampling scheme hos]
      rw [sim_decoded_bits_length sha256 rng noise message tx_secret rx_secret2 chip_rate
        carrier_freq noise_power noise_bandwidth oversampling scheme hos]
      rw [sim_recovered_bits_length, sim_recovered_bits_length]
      rw [sim_bit_metrics_len sha256 rng noise message tx_secret rx_secret1 chip_rate
        carrier_freq noise_power noise_bandwidth oversampling scheme hos]
      rw [sim_bit_metrics_len sha256 rng noise message tx_secret rx_secret2 chip_rate
        carrier_freq noise_power noise_bandwidth oversampling scheme hos]
    intro s
    cases s
    · rfl
    · rfl
    · rfl
    · rfl
    · rfl
    · show some ((fun snap => (snap.waveform.len, snap.sample_rate))
        (⟨sim_decoder_waveform sha256 rng noise message tx_secret rx_secret1 chip_rate
          carrier_freq noise_power noise_bandwidth oversampling scheme,
          chip_rate * (oversampling : ℝ)⟩ : StageSnapshot))
        = some ((fun snap => (snap.waveform.len, snap.sample_rate))
          (⟨sim_decoder_waveform sha256 rng noise message tx_secret rx_secret2 chip_rate
            carrier_freq noise_power noise_bandwidth oversampling scheme,
            chip_rate * (oversampling : ℝ)⟩ : StageSnapshot))
      simp only
      rw [hdeclen]

/-- Witness for C10: two runs differing only in the receive secret have the
same decoder-stage length and sample rate. -/
theorem claim_C10_witness :
    (List.lookup StageName.decoder
        (sim_result (fun _ => []) (fun _ _ => true) (fun _ => 0) "id" [65] "abcd" "abcd"
          1 1 0 1 1 CodingScheme.nrz).stages).map
      (fun snap => (snap.waveform.len, snap.sample_rate))
      = (List.lookup StageName.decoder
          (sim_result (fun _ => []) (fun _ _ => true) (fun _ => 0) "id" [65] "abcd" "zz"
            1 1 0 1 1 CodingScheme.nrz).stages).map
        (fun snap => (snap.waveform.len, snap.sample_rate)) :=
  (claim_C10_rx_secret_shape_independent (fun _ => []) (fun _ _ => true) (fun _ => 0) "id"
    16 [] [65] "abcd" "abcd" "zz" 1 1 0 1 1 CodingScheme.nrz).2.2
    (sim_result (fun _ => []) (fun _ _ => true) (fun _ => 0) "id" [65] "abcd" "abcd"
      1 1 0 1 1 CodingScheme.nrz)
    (sim_result (fun _ => []) (fun _ _ => true) (fun _ => 0) "id" [65] "abcd" "zz"
      1 1 0 1 1 CodingScheme.nrz)
    (by rw [simulate, simulate_run_eq (fun _ => []) (fun _ _ => true) (fun _ => 0) "id"
      [65] "abcd" "abcd" 1 1 0 1 1 CodingScheme.nrz (by decide)])
    (by rw [simulate, simulate_run_eq (fun _ => []) (fun _ _ => true) (fun _ => 0) "id"
      [65] "abcd" "zz" 1 1 0 1 1 CodingScheme.nrz (by decide)])
    StageName.decoder

end DSSS
